import Mathlib

/-!
Verification of the aggregation core of the PokerLeaderboard repository
(`src/lib/csv-processor.ts`), shallowly embedded in Lean 4.

Modelling conventions:
* JavaScript numbers are modelled as exact rationals (`ℚ`).  `parseFloat`
  rounds to IEEE doubles and accepts the literals `Infinity` / `+Infinity` /
  `-Infinity`; the rational model parses the decimal prefix exactly and
  treats `Infinity` literals as unparseable.  No claim below depends on
  float rounding.
* JavaScript objects used as string-keyed maps (`session.results`,
  `playerTotals`, `runningTotals`) are modelled as insertion-ordered
  association lists: assigning to an existing key replaces its value in
  place, assigning to a fresh key appends it, matching JS property order.
* Indexing past the end of a JS array yields `undefined` (and `NaN` after
  arithmetic); the model uses `List.getD _ _ 0`.  All claims about the
  aggregation functions carry the uniform-round-count hypothesis under
  which the source never indexes out of range.
* Exceptions (`throw new Error`) are modelled with `Except String`.
-/

namespace Poker

/-- JS object property lookup `m[k]` for a string-keyed object modelled as an
insertion-ordered association list. -/
def objLookup (m : List (String × α)) (k : String) : Option α :=
  (m.find? (fun e => e.1 = k)).map (fun e => e.2)

/-- JS object property assignment `m[k] = v`: an existing key keeps its
position and gets the new value, a fresh key is appended. -/
def objInsert (m : List (String × α)) (k : String) (v : α) : List (String × α) :=
  if m.any (fun e => e.1 = k) then
    m.map (fun e => if e.1 = k then (k, v) else e)
  else
    m ++ [(k, v)]

@[simp]
theorem objLookup_nil (k : String) : objLookup ([] : List (String × α)) k = none := rfl

theorem objLookup_cons (e : String × α) (m : List (String × α)) (k : String) :
    objLookup (e :: m) k = if e.1 = k then some e.2 else objLookup m k := by
  by_cases h : e.1 = k <;> simp [objLookup, List.find?, h]

theorem objLookup_isSome_iff (m : List (String × α)) (k : String) :
    (objLookup m k).isSome ↔ k ∈ m.map Prod.fst := by
  induction m with
  | nil => simp
  | cons e m ih =>
    rw [objLookup_cons]
    by_cases h : e.1 = k
    · simp [h]
    · rw [if_neg h]
      simp only [List.map_cons, List.mem_cons, ih]
      constructor
      · exact Or.inr
      · intro hk
        rcases hk with hk | hk
        · exact absurd hk.symm h
        · exact hk

theorem objLookup_eq_none_of_not_mem (m : List (String × α)) (k : String)
    (h : k ∉ m.map Prod.fst) : objLookup m k = none := by
  rcases ho : objLookup m k with _ | v
  · rfl
  · exact absurd ((objLookup_isSome_iff m k).mp (by rw [ho]; rfl)) h

theorem objInsert_of_mem (m : List (String × α)) (k : String) (v : α)
    (h : k ∈ m.map Prod.fst) :
    objInsert m k v = m.map (fun e => if e.1 = k then (k, v) else e) := by
  have : m.any (fun e => e.1 = k) = true := by
    simp only [List.any_eq_true, decide_eq_true_eq]
    rcases List.mem_map.mp h with ⟨e, he, hk⟩
    exact ⟨e, he, hk⟩
  simp [objInsert, this]

theorem objInsert_of_not_mem (m : List (String × α)) (k : String) (v : α)
    (h : k ∉ m.map Prod.fst) :
    objInsert m k v = m ++ [(k, v)] := by
  have : m.any (fun e => e.1 = k) = false := by
    simp only [List.any_eq_false, decide_eq_true_eq]
    intro e he hk
    exact h (List.mem_map.mpr ⟨e, he, hk⟩)
  simp [objInsert, this]

theorem objLookup_append (m m' : List (String × α)) (k : String) :
    objLookup (m ++ m') k =
      match objLookup m k with
      | some v => some v
      | none => objLookup m' k := by
  induction m with
  | nil => simp
  | cons e m ih =>
    rw [List.cons_append, objLookup_cons, objLookup_cons]
    by_cases h : e.1 = k
    · simp [h]
    · simp only [if_neg h, ih]

/-- Lookup after the in-place replacement used by `objInsert` on a present
key. -/
theorem objLookup_replace_self (m : List (String × α)) (k : String) (v : α)
    (h : k ∈ m.map Prod.fst) :
    objLookup (m.map (fun e => if e.1 = k then (k, v) else e)) k = some v := by
  induction m with
  | nil => simp at h
  | cons e m ih =>
    by_cases he : e.1 = k
    · simp [he, objLookup_cons]
    · rw [List.map_cons, if_neg he, objLookup_cons, if_neg he]
      have : k ∈ m.map Prod.fst := by
        rcases List.mem_cons.mp (List.map_cons Prod.fst e m ▸ h) with h1 | h1
        · exact absurd h1.symm he
        · exact h1
      exact ih this

theorem objLookup_replace_ne (m : List (String × α)) (k k' : String) (v : α)
    (h : k ≠ k') :
    objLookup (m.map (fun e => if e.1 = k then (k, v) else e)) k' = objLookup m k' := by
  induction m with
  | nil => simp
  | cons e m ih =>
    by_cases he : e.1 = k
    · rw [List.map_cons, if_pos he, objLookup_cons, objLookup_cons, if_neg h,
        if_neg (by rw [he]; exact h), ih]
    · rw [List.map_cons, if_neg he, objLookup_cons, objLookup_cons, ih]

theorem objLookup_objInsert_self (m : List (String × α)) (k : String) (v : α) :
    objLookup (objInsert m k v) k = some v := by
  by_cases h : k ∈ m.map Prod.fst
  · rw [objInsert_of_mem m k v h]
    exact objLookup_replace_self m k v h
  · rw [objInsert_of_not_mem m k v h, objLookup_append,
      objLookup_eq_none_of_not_mem m k h]
    simp [objLookup_cons]

theorem objLookup_objInsert_ne (m : List (String × α)) (k k' : String) (v : α)
    (h : k ≠ k') :
    objLookup (objInsert m k v) k' = objLookup m k' := by
  by_cases hm : k ∈ m.map Prod.fst
  · rw [objInsert_of_mem m k v hm]
    exact objLookup_replace_ne m k k' v h
  · rw [objInsert_of_not_mem m k v hm, objLookup_append]
    rcases ho : objLookup m k' with _ | w
    · show objLookup [(k, v)] k' = none
      rw [objLookup_cons, if_neg h, objLookup_nil]
    · rfl

/-- The key list is unchanged by assigning to a key already present. -/
theorem keys_objInsert_of_mem (m : List (String × α)) (k : String) (v : α)
    (h : k ∈ m.map Prod.fst) :
    (objInsert m k v).map Prod.fst = m.map Prod.fst := by
  rw [objInsert_of_mem m k v h, List.map_map]
  apply List.map_congr_left
  intro e _
  by_cases hk : e.1 = k <;> simp [hk]

/-- Keys of an insert: unchanged when present, extended by `k` when fresh. -/
theorem keys_objInsert (m : List (String × α)) (k : String) (v : α) :
    (objInsert m k v).map Prod.fst =
      if k ∈ m.map Prod.fst then m.map Prod.fst else m.map Prod.fst ++ [k] := by
  by_cases h : k ∈ m.map Prod.fst
  · rw [if_pos h]
    exact keys_objInsert_of_mem m k v h
  · rw [if_neg h, objInsert_of_not_mem m k v h, List.map_append]
    rfl

end Poker

namespace Poker

/-! ## Record Parser (`parseCsvContent`, csv-processor.ts lines 22-50) -/

/-- Value of a digit string, most significant first. -/
def digitsVal (cs : List Char) : Nat :=
  cs.foldl (fun n c => 10 * n + (c.toNat - 48)) 0

/-- Model of JavaScript `parseFloat` on an already-trimmed string, as an exact
rational: optional sign, then the longest decimal-literal prefix
`digits [. digits] [e|E [sign] digits]`; anything after that prefix is
ignored, and `none` models `NaN` (no digit found).  The JS `Infinity`
literals and IEEE rounding are outside this rational model. -/
def jsParseFloat (s : String) : Option ℚ :=
  let cs := s.data
  let sign : ℚ := match cs with
    | '-' :: _ => -1
    | _ => 1
  let cs1 : List Char := match cs with
    | '-' :: rest => rest
    | '+' :: rest => rest
    | _ => cs
  let intDs := cs1.takeWhile Char.isDigit
  let cs2 := cs1.dropWhile Char.isDigit
  let fracDs : List Char := match cs2 with
    | '.' :: rest => rest.takeWhile Char.isDigit
    | _ => []
  let cs3 : List Char := match cs2 with
    | '.' :: rest => rest.dropWhile Char.isDigit
    | _ => cs2
  if intDs.isEmpty && fracDs.isEmpty then none
  else
    let mant : ℚ := (digitsVal intDs : ℚ) + (digitsVal fracDs : ℚ) / ((10 : ℚ) ^ fracDs.length)
    let expVal : Int := match cs3 with
      | e :: rest =>
        if e = 'e' ∨ e = 'E' then
          let esign : Int := match rest with
            | '-' :: _ => -1
            | _ => 1
          let rest2 : List Char := match rest with
            | '-' :: r => r
            | '+' :: r => r
            | _ => rest
          let eDs := rest2.takeWhile Char.isDigit
          if eDs.isEmpty then 0 else esign * (digitsVal eDs : Int)
        else 0
      | [] => 0
    some (sign * mant * (10 : ℚ) ^ expVal)

/-- One data line's fields (`line.split(',').map(...)` with `parseFloat` and
the throw on `NaN`): fields are parsed left to right, the first field whose
trimmed text is not a number aborts with the source's error message.
`rowNum` is the 1-based row number used in the message. -/
def parseVals (rowNum : Nat) : List String → Except String (List ℚ)
  | [] => Except.ok []
  | v :: vs =>
    match jsParseFloat v.trim with
    | none => Except.error ("Invalid number \"" ++ v.trim ++ "\" in row " ++ toString rowNum)
    | some q => (parseVals rowNum vs).map (fun qs => q :: qs)

/-- The `for` loop of `parseCsvContent` over the data lines.  `i` is the index
of the current line within the filtered `lines` array (the loop starts at
`i = 1`); error messages use `i + 1`, exactly as in the source.  The
`line.trim = ""` skip mirrors the source's `if (!line) continue`. -/
def parseRows (numPlayers : Nat) : Nat → List String → Except String (List (List ℚ))
  | _, [] => Except.ok []
  | i, line :: rest =>
    let t := line.trim
    if t = "" then parseRows numPlayers (i + 1) rest
    else
      match parseVals (i + 1) (t.splitOn ",") with
      | Except.error e => Except.error e
      | Except.ok values =>
        if values.length ≠ numPlayers then
          Except.error ("Row " ++ toString (i + 1) ++ " has " ++ toString values.length ++
            " values but expected " ++ toString numPlayers)
        else
          (parseRows numPlayers (i + 1) rest).map (fun rs => values :: rs)

/-- `content.trim().split('\n').filter(line => line.trim() !== '')`. -/
def csvLines (content : String) : List String :=
  (content.trim.splitOn "\n").filter (fun l => l.trim ≠ "")

/-- The parsed table returned by `parseCsvContent`. -/
structure RawTable where
  players : List String
  results : List (List ℚ)
deriving DecidableEq, Repr

/-- `parseCsvContent` (csv-processor.ts lines 22-50). -/
def parseCsvContent (content : String) : Except String RawTable :=
  match csvLines content with
  | [] => Except.error "CSV must have at least a header and one data row"
  | [_] => Except.error "CSV must have at least a header and one data row"
  | header :: dataLines =>
    let players := (header.splitOn ",").map String.trim
    (parseRows players.length 1 dataLines).map (fun results => ⟨players, results⟩)

example : jsParseFloat "10" = some 10 := by with_unfolding_all rfl
example : jsParseFloat "-5.5" = some (-11 / 2 : ℚ) := by with_unfolding_all rfl
example : jsParseFloat "" = none := by with_unfolding_all rfl
example : jsParseFloat "abc" = none := by with_unfolding_all rfl
example : jsParseFloat "10abc" = some 10 := by with_unfolding_all rfl
example : jsParseFloat "1e2" = some 100 := by with_unfolding_all rfl
example : jsParseFloat "." = none := by with_unfolding_all rfl
example : jsParseFloat ".5" = some (1 / 2 : ℚ) := by with_unfolding_all rfl

end Poker

namespace Poker

/-! ## Data model (csv-processor.ts lines 1-20) -/

/-- `SessionData`.  `results` is the JS object mapping player name to that
player's ordered balance changes, modelled as an insertion-ordered
association list (see `objInsert`). -/
structure SessionData where
  sessionName : String
  date : String
  players : List String
  results : List (String × List ℚ)
deriving DecidableEq, Repr

/-- `PlayerTotal`. -/
structure PlayerTotal where
  name : String
  total : ℚ
  sessions : Nat
  lastSession : String
deriving DecidableEq, Repr

/-- `ChartDataPoint`.  The dynamically added per-player fields
(`[playerName: string]: number`) are the `totals` association list spread
from `runningTotals`. -/
structure ChartDataPoint where
  date : String
  sessionName : String
  round : Nat
  totals : List (String × ℚ)
deriving DecidableEq, Repr

/-! ## Session Normalizer (loadAllSessions, csv-processor.ts lines 83-94) -/

/-- The portion of `loadAllSessions` that turns one parsed table into a
`SessionData`: `players.forEach((player, playerIndex) =>
sessionData.results[player] = results.map(round => round[playerIndex]))`.
JS indexing `round[playerIndex]` out of range gives `undefined`; the parser
guarantees rectangular tables, so the `getD _ 0` default is unreachable on
parser output. -/
def normalizeSession (sessionName : String) (table : RawTable) : SessionData :=
  { sessionName := sessionName
    date := sessionName
    players := table.players
    results := table.players.enum.foldl
      (fun acc pe => objInsert acc pe.2 (table.results.map (fun round => round.getD pe.1 0)))
      [] }

/-! ## Aggregation Engine: calculatePlayerTotals (lines 106-131) -/

/-- `balanceChanges.reduce((sum, value) => sum + value, 0)`. -/
def sumList (l : List ℚ) : ℚ := l.foldl (fun sum value => sum + value) 0

/-- The body of the inner `Object.entries(session.results).forEach` of
`calculatePlayerTotals`: create the accumulator entry if absent, then
`total += sessionTotal`, `sessions += 1`, and update `lastSession` when
`session.date > lastSession` (JS string comparison). -/
def processEntry (date : String) (acc : List (String × PlayerTotal))
    (pn : String) (bcs : List ℚ) : List (String × PlayerTotal) :=
  let sessionTotal := sumList bcs
  let acc1 := match objLookup acc pn with
    | some _ => acc
    | none => objInsert acc pn ⟨pn, 0, 0, date⟩
  match objLookup acc1 pn with
  | some pt =>
    objInsert acc1 pn
      ⟨pn, pt.total + sessionTotal, pt.sessions + 1,
        if pt.lastSession < date then date else pt.lastSession⟩
  | none => acc1

/-- The `playerTotals` object after both `forEach` loops of
`calculatePlayerTotals`. -/
def totalsObj (sessions : List SessionData) : List (String × PlayerTotal) :=
  sessions.foldl (fun acc s => s.results.foldl (fun a e => processEntry s.date a e.1 e.2) acc) []

/-- Stable insertion (descending by `total`) used to model
`Array.prototype.sort((a, b) => b.total - a.total)`, which ES2019 requires
to be stable: an element is inserted after every earlier element whose
total is at least as large. -/
def insertTotalDesc (x : PlayerTotal) : List PlayerTotal → List PlayerTotal
  | [] => [x]
  | y :: ys => if y.total ≤ x.total then x :: y :: ys else y :: insertTotalDesc x ys

/-- Stable sort by descending `total` (model of the source's
`.sort((a, b) => b.total - a.total)`). -/
def sortTotalsDesc (l : List PlayerTotal) : List PlayerTotal := l.foldr insertTotalDesc []

/-- `calculatePlayerTotals` (csv-processor.ts lines 106-131):
`Object.values(playerTotals).sort((a, b) => b.total - a.total)`. -/
def calculatePlayerTotals (sessions : List SessionData) : List PlayerTotal :=
  sortTotalsDesc ((totalsObj sessions).map (fun e => e.2))

/-! ## Aggregation Engine: generateChartData (lines 133-187) -/

/-- The `allPlayers` set (`new Set<string>()` filled in session order, then
`Array.from`): JS sets iterate in insertion order, so this is the list of
player names in order of first appearance. -/
def collectAllPlayers (sessions : List SessionData) : List String :=
  sessions.foldl
    (fun acc s => s.results.foldl (fun a e => if e.1 ∈ a then a else a ++ [e.1]) acc) []

/-- `const firstPlayer = Object.keys(session.results)[0];
session.results[firstPlayer]?.length || 0`. -/
def numBalanceChanges (s : SessionData) : Nat :=
  match s.results with
  | [] => 0
  | e :: rest => ((objLookup (e :: rest) e.1).map List.length).getD 0

/-- One `changeIndex` iteration: `Object.entries(session.results).forEach(
([playerName, balanceChanges]) => runningTotals[playerName] +=
balanceChanges[changeIndex])`.  Out-of-range indexing is `undefined`/`NaN`
in JS and `getD _ 0` here; it is unreachable under the uniform
round-count hypothesis carried by every claim.  The lookup default is
likewise unreachable: every key of `results` is initialized in
`runningTotals`. -/
def stepRound (results : List (String × List ℚ)) (changeIndex : Nat)
    (rt : List (String × ℚ)) : List (String × ℚ) :=
  results.foldl
    (fun m e => objInsert m e.1 ((objLookup m e.1).getD 0 + e.2.getD changeIndex 0)) rt

/-- The `for (changeIndex...)` loop of `generateChartData`: starting at round
index `i` with `k` rounds to go, update the running totals and emit one
`ChartDataPoint` per round (the spread `...runningTotals` snapshot).
Returns the emitted points and the final running totals. -/
def runRounds (s : SessionData) :
    List (String × ℚ) → Nat → Nat → List ChartDataPoint × List (String × ℚ)
  | rt, _, 0 => ([], rt)
  | rt, i, Nat.succ k =>
    let rt1 := stepRound s.results i rt
    let r := runRounds s rt1 (i + 1) k
    (⟨s.date, s.sessionName, i + 1, rt1⟩ :: r.1, r.2)

/-- The `sessions.forEach` loop of `generateChartData`, threading the
running totals through the per-session round loops. -/
def runSessions : List (String × ℚ) → List SessionData → List ChartDataPoint × List (String × ℚ)
  | rt, [] => ([], rt)
  | rt, s :: rest =>
    let b := runRounds s rt 0 (numBalanceChanges s)
    let r := runSessions b.2 rest
    (b.1 ++ r.1, r.2)

/-- `generateChartData` (csv-processor.ts lines 133-187). -/
def generateChartData (sessions : List SessionData) : List ChartDataPoint :=
  let allPlayers := collectAllPlayers sessions
  let rt0 : List (String × ℚ) := allPlayers.map (fun p => (p, 0))
  let startPts : List ChartDataPoint :=
    match sessions with
    | [] => []
    | s :: _ => [⟨s.date, s.sessionName ++ " - Start", 0, rt0⟩]
  startPts ++ (runSessions rt0 sessions).1

end Poker

namespace Poker

/-! ## Parser lemmas -/

/-- A data line is rejected by the source loop: some comma-separated field's
trimmed text is not a number, or the field count differs from the player
count. -/
def lineBad (n : Nat) (l : String) : Bool :=
  (l.trim.splitOn ",").any (fun v => (jsParseFloat v.trim).isNone) ||
    decide ((l.trim.splitOn ",").length ≠ n)

/-- The error message the loop body produces for an offending line `l` when
the 1-based row number used is `r`: the first non-numeric field wins,
otherwise the field-count message. -/
def lineErrorMsg (n : Nat) (l : String) (r : Nat) : String :=
  match (l.trim.splitOn ",").find? (fun v => (jsParseFloat v.trim).isNone) with
  | some v => "Invalid number \"" ++ v.trim ++ "\" in row " ++ toString r
  | none =>
    "Row " ++ toString r ++ " has " ++ toString (l.trim.splitOn ",").length ++
      " values but expected " ++ toString n

theorem parseVals_ok_of_find_none (r : Nat) (vs : List String)
    (h : vs.find? (fun v => (jsParseFloat v.trim).isNone) = none) :
    parseVals r vs = Except.ok (vs.map (fun v => (jsParseFloat v.trim).getD 0)) := by
  induction vs with
  | nil => rfl
  | cons v vs ih =>
    cases hv : jsParseFloat v.trim with
    | none => simp [List.find?, hv] at h
    | some q =>
      have h' : vs.find? (fun v => (jsParseFloat v.trim).isNone) = none := by
        simpa [List.find?, hv] using h
      simp [parseVals, hv, ih h', Except.map]

theorem parseVals_error_of_find_some (r : Nat) (vs : List String) (v : String)
    (h : vs.find? (fun v => (jsParseFloat v.trim).isNone) = some v) :
    parseVals r vs =
      Except.error ("Invalid number \"" ++ v.trim ++ "\" in row " ++ toString r) := by
  induction vs with
  | nil => simp [List.find?] at h
  | cons w vs ih =>
    cases hw : jsParseFloat w.trim with
    | none =>
      have hwv : w = v := by simpa [List.find?, hw] using h
      subst hwv
      simp [parseVals, hw]
    | some q =>
      have h' : vs.find? (fun v => (jsParseFloat v.trim).isNone) = some v := by
        simpa [List.find?, hw] using h
      simp [parseVals, hw, ih h', Except.map]

theorem lineBad_true_iff (n : Nat) (l : String) :
    lineBad n l = true ↔
      ((∃ v ∈ l.trim.splitOn ",", jsParseFloat v.trim = none) ∨
        (l.trim.splitOn ",").length ≠ n) := by
  simp [lineBad, List.any_eq_true, Option.isNone_iff_eq_none]

theorem parseRows_cons_bad (n i : Nat) (l : String) (rest : List String)
    (hnb : l.trim ≠ "") (hbad : lineBad n l = true) :
    parseRows n i (l :: rest) = Except.error (lineErrorMsg n l (i + 1)) := by
  cases hf : (l.trim.splitOn ",").find? (fun v => (jsParseFloat v.trim).isNone) with
  | some v =>
    simp only [parseRows, if_neg hnb, parseVals_error_of_find_some (i + 1) _ v hf,
      lineErrorMsg, hf]
  | none =>
    have hcnt : (l.trim.splitOn ",").length ≠ n := by
      rcases (lineBad_true_iff n l).mp hbad with hv | hc
      · exfalso
        rcases hv with ⟨v, hv1, hv2⟩
        have := List.find?_eq_none.mp hf v hv1
        simp [hv2] at this
      · exact hc
    simp only [parseRows, if_neg hnb, parseVals_ok_of_find_none (i + 1) _ hf]
    rw [if_pos (by simpa using hcnt)]
    simp only [lineErrorMsg, hf, List.length_map]

theorem parseRows_cons_good (n i : Nat) (l : String) (rest : List String)
    (hnb : l.trim ≠ "") (hgood : lineBad n l = false) :
    parseRows n i (l :: rest) =
      (parseRows n (i + 1) rest).map
        (fun rs => (l.trim.splitOn ",").map (fun v => (jsParseFloat v.trim).getD 0) :: rs) := by
  have hnotbad := hgood
  rw [lineBad, Bool.or_eq_false_iff] at hnotbad
  have hf : (l.trim.splitOn ",").find? (fun v => (jsParseFloat v.trim).isNone) = none := by
    rw [List.find?_eq_none]
    intro v hv
    have := List.any_eq_false.mp hnotbad.1 v hv
    simpa using this
  have hcnt : (l.trim.splitOn ",").length = n := by
    have := hnotbad.2
    simpa using this
  simp only [parseRows, if_neg hnb, parseVals_ok_of_find_none (i + 1) _ hf]
  rw [if_neg (by simp [hcnt])]

theorem except_map_error_iff (f : α → β) (x : Except String α) :
    (∃ e, x.map f = Except.error e) ↔ (∃ e, x = Except.error e) := by
  cases x <;> simp [Except.map]

theorem parseRows_error_iff (n : Nat) (ls : List String) :
    ∀ i, (∀ l ∈ ls, l.trim ≠ "") →
      ((∃ e, parseRows n i ls = Except.error e) ↔ ∃ l ∈ ls, lineBad n l = true) := by
  induction ls with
  | nil => intro i h; simp [parseRows]
  | cons l rest ih =>
    intro i h
    have hnb : l.trim ≠ "" := h l (List.mem_cons_self l rest)
    cases hbad : lineBad n l with
    | true =>
      rw [parseRows_cons_bad n i l rest hnb hbad]
      constructor
      · intro _; exact ⟨l, List.mem_cons_self l rest, hbad⟩
      · intro _; exact ⟨_, rfl⟩
    | false =>
      rw [parseRows_cons_good n i l rest hnb hbad, except_map_error_iff,
        ih (i + 1) (fun x hx => h x (List.mem_cons_of_mem l hx))]
      constructor
      · rintro ⟨x, hx1, hx2⟩
        exact ⟨x, List.mem_cons_of_mem l hx1, hx2⟩
      · rintro ⟨x, hx1, hx2⟩
        rcases List.mem_cons.mp hx1 with rfl | hx1
        · rw [hbad] at hx2; cases hx2
        · exact ⟨x, hx1, hx2⟩

theorem parseRows_append_error (n : Nat) (good ls : List String) (e : String) :
    ∀ i, (∀ g ∈ good, g.trim ≠ "" ∧ lineBad n g = false) →
      parseRows n (i + good.length) ls = Except.error e →
      parseRows n i (good ++ ls) = Except.error e := by
  induction good with
  | nil => intro i _ h; simpa using h
  | cons g good ih =>
    intro i hg h
    have hgww := hg g (List.mem_cons_self g good)
    rw [List.cons_append, parseRows_cons_good n i g (good ++ ls) hgww.1 hgww.2]
    have : parseRows n (i + 1 + good.length) ls = Except.error e := by
      have harith : i + 1 + good.length = i + (good.length + 1) := by omega
      rw [harith]
      exact h
    rw [ih (i + 1) (fun x hx => hg x (List.mem_cons_of_mem g hx)) this]
    rfl

theorem csvLines_nonblank (content : String) : ∀ l ∈ csvLines content, l.trim ≠ "" := by
  intro l hl
  exact of_decide_eq_true (List.mem_filter.mp hl).2

end Poker

namespace Poker

/-- Claim C3: for every input text, `parseCsvContent` throws an error exactly
when fewer than 2 non-blank lines exist, or some data line has a different
number of comma-separated fields than the header line, or some data field,
after trimming, does not parse as a number (including empty fields); and in
particular the input `"Alice,Bob\n10\n"` raises an error naming row 2. -/
theorem claim_C3 (content : String) :
    ((∃ e, parseCsvContent content = Except.error e) ↔
      ((csvLines content).length < 2 ∨
        ∃ l ∈ (csvLines content).drop 1,
          ((l.trim.splitOn ",").length ≠
              ((((csvLines content).headD "").splitOn ",").map String.trim).length ∨
            ∃ v ∈ l.trim.splitOn ",", jsParseFloat v.trim = none))) ∧
    parseCsvContent "Alice,Bob\n10\n" =
      Except.error "Row 2 has 1 values but expected 2" := by
  constructor
  · cases hcl : csvLines content with
    | nil => simp [parseCsvContent, hcl]
    | cons h0 tl =>
      cases tl with
      | nil => simp [parseCsvContent, hcl]
      | cons l1 ds =>
        have hnb : ∀ l ∈ l1 :: ds, l.trim ≠ "" := fun l hl =>
          csvLines_nonblank content l (by rw [hcl]; exact List.mem_cons_of_mem h0 hl)
        simp only [parseCsvContent, hcl]
        rw [except_map_error_iff, parseRows_error_iff _ _ 1 hnb]
        simp only [List.drop_one, List.tail_cons, List.headD_cons, List.length_cons]
        constructor
        · rintro ⟨l, hl, hbad⟩
          right
          refine ⟨l, hl, ?_⟩
          rcases (lineBad_true_iff _ l).mp hbad with hv | hc
          · exact Or.inr hv
          · exact Or.inl hc
        · rintro (hlt | ⟨l, hl, hbad⟩)
          · omega
          · exact ⟨l, hl, (lineBad_true_iff _ l).mpr hbad.symm⟩
  · with_unfolding_all rfl

/-- Claim C4 is false on the code: for the input `"Alice,Bob\n\n10"` the
offending line `"10"` is line 3 of the original, unfiltered line sequence
(line 2 is the blank line), yet the error message names row 2, because the
source numbers rows within the blank-filtered `lines` array. -/
theorem claim_C4_counterexample :
    parseCsvContent "Alice,Bob\n\n10" = Except.error "Row 2 has 1 values but expected 2" ∧
    ("Alice,Bob\n\n10".splitOn "\n").length = 3 ∧
    ("Alice,Bob\n\n10".splitOn "\n").getD 1 "?" = "" ∧
    ("Alice,Bob\n\n10".splitOn "\n").getD 2 "?" = "10" := by
  refine ⟨?_, ?_, ?_, ?_⟩ <;> with_unfolding_all rfl

/-- Claim C4 amended: when `parseCsvContent` throws a per-row error, the row
index named in the message is the 1-based position of the offending line
within the FILTERED sequence of non-blank lines of the trimmed input (the
header being position 1), not within the original unfiltered line
sequence.  Here the filtered lines are `header :: (good ++ l :: rest)`,
every line of `good` is acceptable and `l` is the first offending line, at
filtered position `good.length + 2`. -/
theorem claim_C4_amended (content header l : String) (good rest : List String)
    (hcl : csvLines content = header :: (good ++ l :: rest))
    (hgood : ∀ g ∈ good, lineBad (((header.splitOn ",").map String.trim).length) g = false)
    (hbad : lineBad (((header.splitOn ",").map String.trim).length) l = true) :
    parseCsvContent content =
      Except.error
        (lineErrorMsg (((header.splitOn ",").map String.trim).length) l (good.length + 2)) := by
  have hnb : ∀ x ∈ good ++ l :: rest, x.trim ≠ "" := fun x hx =>
    csvLines_nonblank content x (by rw [hcl]; exact List.mem_cons_of_mem header hx)
  rcases hX : good ++ l :: rest with _ | ⟨x, xs⟩
  · simp at hX
  · simp only [parseCsvContent, hcl, hX]
    rw [← hX]
    have hnum : 1 + good.length + 1 = good.length + 2 := by omega
    have hrows : parseRows (((header.splitOn ",").map String.trim).length)
        (1 + good.length) (l :: rest) =
        Except.error
          (lineErrorMsg (((header.splitOn ",").map String.trim).length) l (good.length + 2)) := by
      rw [parseRows_cons_bad _ _ _ _
        (hnb l (List.mem_append_right good (List.mem_cons_self l rest))) hbad, hnum]
    rw [parseRows_append_error _ good (l :: rest) _ 1
      (fun g hg => ⟨hnb g (List.mem_append_left _ hg), hgood g hg⟩) hrows]
    rfl

/-- Witness for the amended C4: with input `"Alice,Bob\n\n10,5\nx,y"` the
filtered lines are `["Alice,Bob", "10,5", "x,y"]`; the offending line
`"x,y"` is named row 3 (its position among the filtered lines), even
though it is line 4 of the original sequence. -/
theorem claim_C4_amended_witness :
    csvLines "Alice,Bob\n\n10,5\nx,y" = "Alice,Bob" :: (["10,5"] ++ "x,y" :: []) ∧
    lineBad ((("Alice,Bob".splitOn ",").map String.trim).length) "x,y" = true ∧
    parseCsvContent "Alice,Bob\n\n10,5\nx,y" =
      Except.error "Invalid number \"x\" in row 3" :=
  ⟨by with_unfolding_all rfl,
   by with_unfolding_all rfl,
   by
    have h := claim_C4_amended "Alice,Bob\n\n10,5\nx,y" "Alice,Bob" "x,y" ["10,5"] []
      (by with_unfolding_all rfl)
      (by
        intro g hg
        rw [List.mem_singleton] at hg
        subst hg
        with_unfolding_all rfl)
      (by with_unfolding_all rfl)
    rw [h]
    with_unfolding_all rfl⟩

end Poker

namespace Poker

/-! ## Normalizer lemmas -/

/-- First-encounter accumulation (`if p ∈ ks then ks else ks ++ [p]` folded
over a name list); describes both the key order of JS objects filled by
assignment and JS `Set` insertion order. -/
def seenFold (ks : List String) (ps : List String) : List String :=
  ps.foldl (fun a p => if p ∈ a then a else a ++ [p]) ks

@[simp]
theorem seenFold_nil (ks : List String) : seenFold ks [] = ks := rfl

theorem seenFold_cons (ks : List String) (p : String) (ps : List String) :
    seenFold ks (p :: ps) = seenFold (if p ∈ ks then ks else ks ++ [p]) ps := rfl

theorem mem_seenFold (q : String) :
    ∀ (ps ks : List String), q ∈ seenFold ks ps ↔ q ∈ ks ∨ q ∈ ps := by
  intro ps
  induction ps with
  | nil => simp
  | cons p ps ih =>
    intro ks
    rw [seenFold_cons, ih]
    by_cases hp : p ∈ ks
    · rw [if_pos hp]
      constructor
      · rintro (h | h)
        · exact Or.inl h
        · exact Or.inr (List.mem_cons_of_mem p h)
      · rintro (h | h)
        · exact Or.inl h
        · rcases List.mem_cons.mp h with rfl | h
          · exact Or.inl hp
          · exact Or.inr h
    · rw [if_neg hp]
      simp only [List.mem_append, List.mem_singleton, List.mem_cons]
      tauto

theorem seenFold_nodup : ∀ (ps ks : List String), ks.Nodup → (seenFold ks ps).Nodup := by
  intro ps
  induction ps with
  | nil => intro ks h; exact h
  | cons p ps ih =>
    intro ks h
    rw [seenFold_cons]
    by_cases hp : p ∈ ks
    · rw [if_pos hp]; exact ih ks h
    · rw [if_neg hp]
      exact ih _ (by simp [List.nodup_append, h, hp])

theorem seenFold_prefix : ∀ (ps ks : List String), ∃ ts, seenFold ks ps = ks ++ ts := by
  intro ps
  induction ps with
  | nil => intro ks; exact ⟨[], by simp⟩
  | cons p ps ih =>
    intro ks
    rw [seenFold_cons]
    by_cases hp : p ∈ ks
    · rw [if_pos hp]; exact ih ks
    · rw [if_neg hp]
      rcases ih (ks ++ [p]) with ⟨ts, hts⟩
      refine ⟨p :: ts, ?_⟩
      rw [hts, List.append_assoc]
      rfl

/-- Index of the last column carrying name `q` in `ps`, offset by `n`
(mirrors repeated JS object assignment: the last write wins). -/
def lastIdxFrom : List String → Nat → String → Option Nat
  | [], _, _ => none
  | p :: rest, n, q =>
    match lastIdxFrom rest (n + 1) q with
    | some j => some j
    | none => if p = q then some n else none

theorem lastIdxFrom_of_not_mem (q : String) :
    ∀ (ps : List String) (n : Nat), q ∉ ps → lastIdxFrom ps n q = none := by
  intro ps
  induction ps with
  | nil => intro n _; rfl
  | cons p rest ih =>
    intro n h
    have hp : p ≠ q := fun hpq => h (hpq ▸ List.mem_cons_self p rest)
    have hr : q ∉ rest := fun hq => h (List.mem_cons_of_mem p hq)
    rw [lastIdxFrom, ih (n + 1) hr, if_neg hp]

theorem lastIdxFrom_of_nodup :
    ∀ (ps : List String) (n i : Nat) (hi : i < ps.length), ps.Nodup →
      lastIdxFrom ps n (ps.get ⟨i, hi⟩) = some (n + i) := by
  intro ps
  induction ps with
  | nil => intro n i hi _; cases hi
  | cons p rest ih =>
    intro n i hi hnd
    cases i with
    | zero =>
      have hp : p ∉ rest := (List.nodup_cons.mp hnd).1
      rw [lastIdxFrom, lastIdxFrom_of_not_mem _ rest (n + 1) (by simpa using hp)]
      simp
    | succ j =>
      have hj : j < rest.length := by simpa using hi
      have : (p :: rest).get ⟨j + 1, hi⟩ = rest.get ⟨j, hj⟩ := rfl
      rw [this, lastIdxFrom, ih (n + 1) j hj (List.nodup_cons.mp hnd).2]
      have : n + 1 + j = n + (j + 1) := by omega
      rw [this]

theorem objLookup_enumFrom_foldl (f : Nat → α) :
    ∀ (ps : List String) (n : Nat) (acc : List (String × α)) (q : String),
      objLookup ((List.enumFrom n ps).foldl (fun a pe => objInsert a pe.2 (f pe.1)) acc) q =
        match lastIdxFrom ps n q with
        | some j => some (f j)
        | none => objLookup acc q := by
  intro ps
  induction ps with
  | nil => intro n acc q; rfl
  | cons p rest ih =>
    intro n acc q
    rw [List.enumFrom_cons, List.foldl_cons, ih (n + 1), lastIdxFrom]
    cases hl : lastIdxFrom rest (n + 1) q with
    | some j => rfl
    | none =>
      by_cases hp : p = q
      · rw [if_pos hp]
        show objLookup (objInsert acc p (f n)) q = some (f n)
        rw [hp]
        exact objLookup_objInsert_self acc q (f n)
      · rw [if_neg hp]
        exact objLookup_objInsert_ne acc p q (f n) hp

theorem keys_enumFrom_foldl (f : Nat → α) :
    ∀ (ps : List String) (n : Nat) (acc : List (String × α)),
      ((List.enumFrom n ps).foldl (fun a pe => objInsert a pe.2 (f pe.1)) acc).map Prod.fst =
        seenFold (acc.map Prod.fst) ps := by
  intro ps
  induction ps with
  | nil => intro n acc; rfl
  | cons p rest ih =>
    intro n acc
    rw [List.enumFrom_cons, List.foldl_cons, ih (n + 1), seenFold_cons]
    congr 1
    rw [keys_objInsert]

end Poker

namespace Poker

theorem normalizeSession_results_lookup (id : String) (table : RawTable) (q : String) :
    objLookup (normalizeSession id table).results q =
      match lastIdxFrom table.players 0 q with
      | some j => some (table.results.map (fun round => round.getD j 0))
      | none => none := by
  show objLookup
      ((List.enumFrom 0 table.players).foldl
        (fun acc pe =>
          objInsert acc pe.2 ((fun i => table.results.map (fun round => round.getD i 0)) pe.1))
        []) q = _
  rw [objLookup_enumFrom_foldl (fun i => table.results.map (fun round => round.getD i 0))
    table.players 0 [] q]
  cases lastIdxFrom table.players 0 q <;> rfl

theorem normalizeSession_results_keys (id : String) (table : RawTable) :
    (normalizeSession id table).results.map Prod.fst = seenFold [] table.players := by
  show ((List.enumFrom 0 table.players).foldl
      (fun acc pe =>
        objInsert acc pe.2 ((fun i => table.results.map (fun round => round.getD i 0)) pe.1))
      []).map Prod.fst = _
  rw [keys_enumFrom_foldl (fun i => table.results.map (fun round => round.getD i 0))
    table.players 0 []]
  rfl

/-- Claim C9: for a parsed table with pairwise-distinct player names, the
normalized session's delta sequence for the player at column `i` is the
`i`-th column of the table, preserving row order: its entry at position
`r` is row `r`'s value at column `i`. -/
theorem claim_C9 (id : String) (table : RawTable) (i r : Nat)
    (hi : i < table.players.length) (hr : r < table.results.length)
    (hnd : table.players.Nodup) :
    objLookup (normalizeSession id table).results (table.players.get ⟨i, hi⟩) =
      some (table.results.map (fun row => row.getD i 0)) ∧
    (table.results.map (fun row => row.getD i 0)).getD r 0 =
      (table.results.getD r []).getD i 0 := by
  constructor
  · rw [normalizeSession_results_lookup, lastIdxFrom_of_nodup table.players 0 i hi hnd]
    simp
  · have hr' : r < (table.results.map (fun row => row.getD i 0)).length := by simpa using hr
    rw [List.getD_eq_getElem _ _ hr', List.getD_eq_getElem _ _ hr, List.getElem_map]

/-- Witness for C9 on the Scenario A table. -/
theorem claim_C9_witness :
    (1 < (["Alice", "Bob"] : List String).length ∧
      1 < ([[10, -10], [-5, 5]] : List (List ℚ)).length ∧
      (["Alice", "Bob"] : List String).Nodup) ∧
    (objLookup (normalizeSession "2025-01-01" ⟨["Alice", "Bob"], [[10, -10], [-5, 5]]⟩).results
        "Bob" = some [-10, 5] ∧
      ([-10, 5] : List ℚ).getD 1 0 = ([-5, 5] : List ℚ).getD 1 0) := by
  have h := claim_C9 "2025-01-01" ⟨["Alice", "Bob"], [[10, -10], [-5, 5]]⟩ 1 1
    (by simp) (by simp) (by simp)
  refine ⟨⟨by simp, by simp, by simp⟩, ?_, ?_⟩
  · have h1 := h.1
    with_unfolding_all exact h1
  · with_unfolding_all rfl

end Poker

namespace Poker

/-! ## calculatePlayerTotals lemmas -/

/-- Combined effect of one `Object.entries` iteration of
`calculatePlayerTotals` on the accumulator entry of the player itself:
create-if-absent, then `total += sum`, `sessions += 1`, `lastSession`
update. -/
def updInit (date : String) (pn : String) (bcs : List ℚ) : Option PlayerTotal → PlayerTotal
  | some pt =>
    ⟨pn, pt.total + sumList bcs, pt.sessions + 1,
      if pt.lastSession < date then date else pt.lastSession⟩
  | none => ⟨pn, sumList bcs, 1, date⟩

theorem objLookup_processEntry (date : String) (acc : List (String × PlayerTotal))
    (pn : String) (bcs : List ℚ) (q : String) :
    objLookup (processEntry date acc pn bcs) q =
      if pn = q then some (updInit date pn bcs (objLookup acc pn)) else objLookup acc q := by
  cases h : objLookup acc pn with
  | some pt =>
    simp only [processEntry, h]
    by_cases hq : pn = q
    · rw [if_pos hq, ← hq, objLookup_objInsert_self]
      rfl
    · rw [if_neg hq, objLookup_objInsert_ne _ _ _ _ hq]
  | none =>
    simp only [processEntry, h, objLookup_objInsert_self]
    by_cases hq : pn = q
    · rw [if_pos hq, ← hq, objLookup_objInsert_self]
      show some (⟨pn, 0 + sumList bcs, 0 + 1,
        if date < date then date else date⟩ : PlayerTotal) = _
      rw [updInit]
      norm_num [lt_irrefl]
    · rw [if_neg hq, objLookup_objInsert_ne _ _ _ _ hq, objLookup_objInsert_ne _ _ _ _ hq]

theorem keys_processEntry (date : String) (acc : List (String × PlayerTotal))
    (pn : String) (bcs : List ℚ) :
    (processEntry date acc pn bcs).map Prod.fst =
      if pn ∈ acc.map Prod.fst then acc.map Prod.fst else acc.map Prod.fst ++ [pn] := by
  cases h : objLookup acc pn with
  | some pt =>
    have hm : pn ∈ acc.map Prod.fst :=
      (objLookup_isSome_iff acc pn).mp (by rw [h]; rfl)
    simp only [processEntry, h]
    rw [keys_objInsert_of_mem _ _ _ hm, if_pos hm]
  | none =>
    have hm : pn ∉ acc.map Prod.fst := by
      intro hmem
      have := (objLookup_isSome_iff acc pn).mpr hmem
      rw [h] at this
      cases this
    simp only [processEntry, h, objLookup_objInsert_self]
    rw [keys_objInsert_of_mem, if_neg hm, objInsert_of_not_mem _ _ _ hm, List.map_append]
    · rfl
    · rw [objInsert_of_not_mem _ _ _ hm, List.map_append]
      simp

theorem mem_objInsert (m : List (String × α)) (k : String) (v : α) (e : String × α)
    (h : e ∈ objInsert m k v) : e ∈ m ∨ e = (k, v) := by
  by_cases hm : k ∈ m.map Prod.fst
  · rw [objInsert_of_mem _ _ _ hm] at h
    rcases List.mem_map.mp h with ⟨x, hx, hfx⟩
    by_cases hxk : x.1 = k
    · rw [if_pos hxk] at hfx
      exact Or.inr hfx.symm
    · rw [if_neg hxk] at hfx
      exact Or.inl (hfx ▸ hx)
  · rw [objInsert_of_not_mem _ _ _ hm] at h
    rcases List.mem_append.mp h with h1 | h1
    · exact Or.inl h1
    · exact Or.inr (List.mem_singleton.mp h1)

theorem mem_processEntry (date : String) (acc : List (String × PlayerTotal))
    (pn : String) (bcs : List ℚ) (e : String × PlayerTotal)
    (h : e ∈ processEntry date acc pn bcs) : e ∈ acc ∨ e.2.name = e.1 := by
  have step : ∀ (a : List (String × PlayerTotal)) (pt : PlayerTotal), pt.name = pn →
      e ∈ objInsert a pn pt → e ∈ a ∨ e.2.name = e.1 := by
    intro a pt hname hmem
    rcases mem_objInsert a pn pt e hmem with h1 | h1
    · exact Or.inl h1
    · right
      rw [h1]
      exact hname
  cases hl : objLookup acc pn with
  | some pt =>
    simp only [processEntry, hl] at h
    exact step acc _ rfl h
  | none =>
    simp only [processEntry, hl, objLookup_objInsert_self] at h
    rcases step _ _ rfl h with h1 | h1
    · exact step acc _ rfl h1
    · exact Or.inr h1

/-- One session's inner `forEach` fold of `calculatePlayerTotals`. -/
theorem objLookup_sessionFold (date : String) (results : List (String × List ℚ)) :
    ∀ (acc : List (String × PlayerTotal)) (q : String),
      (results.map Prod.fst).Nodup →
      objLookup (results.foldl (fun a e => processEntry date a e.1 e.2) acc) q =
        match results.find? (fun e => e.1 = q) with
        | some e => some (updInit date q e.2 (objLookup acc q))
        | none => objLookup acc q := by
  induction results with
  | nil => intro acc q _; rfl
  | cons e rest ih =>
    intro acc q hnd
    rw [List.foldl_cons]
    by_cases hq : e.1 = q
    · have hnotq : rest.find? (fun e => e.1 = q) = none := by
        rw [List.find?_eq_none]
        intro x hx
        have : x.1 ≠ q := by
          intro hxq
          have he : e.1 ∉ rest.map Prod.fst := by
            rw [List.map_cons] at hnd
            exact (List.nodup_cons.mp hnd).1
          exact he (hq ▸ hxq ▸ List.mem_map.mpr ⟨x, hx, rfl⟩)
        simpa using this
      rw [ih _ q (by rw [List.map_cons] at hnd; exact (List.nodup_cons.mp hnd).2), hnotq]
      have hfind : (e :: rest).find? (fun x => x.1 = q) = some e := by
        simp [List.find?, hq]
      rw [hfind]
      rw [objLookup_processEntry, if_pos hq, hq]
    · have hfind : (e :: rest).find? (fun x => x.1 = q) = rest.find? (fun x => x.1 = q) := by
        simp [List.find?, hq]
      rw [ih _ q (by rw [List.map_cons] at hnd; exact (List.nodup_cons.mp hnd).2), hfind,
        objLookup_processEntry, if_neg hq]

theorem keys_sessionFold (date : String) (results : List (String × List ℚ)) :
    ∀ (acc : List (String × PlayerTotal)),
      (results.foldl (fun a e => processEntry date a e.1 e.2) acc).map Prod.fst =
        seenFold (acc.map Prod.fst) (results.map Prod.fst) := by
  induction results with
  | nil => intro acc; rfl
  | cons e rest ih =>
    intro acc
    rw [List.foldl_cons, List.map_cons, seenFold_cons, ih, keys_processEntry]

theorem mem_sessionFold (date : String) (results : List (String × List ℚ)) :
    ∀ (acc : List (String × PlayerTotal)) (e : String × PlayerTotal),
      e ∈ results.foldl (fun a e => processEntry date a e.1 e.2) acc →
      e ∈ acc ∨ e.2.name = e.1 := by
  induction results with
  | nil => intro acc e h; exact Or.inl h
  | cons x rest ih =>
    intro acc e h
    rcases ih _ e h with h1 | h1
    · exact mem_processEntry date acc x.1 x.2 e h1
    · exact Or.inr h1

/-- The sessions a player appears in (has an entry in `results`). -/
def sessionsWith (p : String) (sessions : List SessionData) : List SessionData :=
  sessions.filter (fun s => (objLookup s.results p).isSome)

/-- Abstract accumulation of one player's `PlayerTotal` over the session
list, mirroring what the `calculatePlayerTotals` loops do to that player's
accumulator entry. -/
def accumTotals (p : String) : Option PlayerTotal → List SessionData → Option PlayerTotal
  | prior, [] => prior
  | prior, s :: rest =>
    match objLookup s.results p with
    | some bcs => accumTotals p (some (updInit s.date p bcs prior)) rest
    | none => accumTotals p prior rest

/-- Running maximum of date strings (JS `>` string comparison), as folded by
the `lastSession` updates. -/
def foldDates (d0 : String) (ds : List String) : String :=
  ds.foldl (fun a d => if a < d then d else a) d0

theorem objLookup_totalsFold (p : String) :
    ∀ (sessions : List SessionData) (acc : List (String × PlayerTotal)),
      (∀ s ∈ sessions, (s.results.map Prod.fst).Nodup) →
      objLookup
        (sessions.foldl
          (fun acc s => s.results.foldl (fun a e => processEntry s.date a e.1 e.2) acc) acc) p =
        accumTotals p (objLookup acc p) sessions := by
  intro sessions
  induction sessions with
  | nil => intro acc _; rfl
  | cons s rest ih =>
    intro acc hnd
    rw [List.foldl_cons,
      ih _ (fun x hx => hnd x (List.mem_cons_of_mem s hx)),
      objLookup_sessionFold s.date s.results acc p (hnd s (List.mem_cons_self s rest))]
    show _ = accumTotals p (objLookup acc p) (s :: rest)
    rw [accumTotals]
    cases hf : s.results.find? (fun e => e.1 = p) with
    | some e =>
      have hl : objLookup s.results p = some e.2 := by
        rw [objLookup, hf]
        rfl
      rw [hl]
    | none =>
      have hl : objLookup s.results p = none := by
        rw [objLookup, hf]
        rfl
      rw [hl]

theorem accumTotals_some_closed (p : String) :
    ∀ (sessions : List SessionData) (pt0 : PlayerTotal), pt0.name = p →
      accumTotals p (some pt0) sessions =
        some
          ⟨p,
            pt0.total +
              ((sessionsWith p sessions).map
                (fun s => sumList ((objLookup s.results p).getD []))).sum,
            pt0.sessions + (sessionsWith p sessions).length,
            foldDates pt0.lastSession ((sessionsWith p sessions).map (fun s => s.date))⟩ := by
  intro sessions
  induction sessions with
  | nil =>
    intro pt0 hname
    cases pt0
    simp only [accumTotals, sessionsWith, List.filter_nil, List.map_nil, List.sum_nil,
      List.length_nil, foldDates, List.foldl_nil]
    subst hname
    norm_num
  | cons s rest ih =>
    intro pt0 hname
    cases hl : objLookup s.results p with
    | some bcs =>
      have hpos : (sessionsWith p (s :: rest)) = s :: sessionsWith p rest := by
        simp only [sessionsWith]
        rw [List.filter_cons_of_pos]
        simp [hl]
      simp only [accumTotals, hl]
      rw [ih (updInit s.date p bcs (some pt0)) rfl, hpos]
      simp only [List.map_cons, List.sum_cons, List.length_cons, updInit, hl, Option.getD_some]
      congr 1
      simp only [PlayerTotal.mk.injEq]
      refine ⟨trivial, ?_, ?_, ?_⟩
      · ring
      · omega
      · rfl
    | none =>
      have hneg : (sessionsWith p (s :: rest)) = sessionsWith p rest := by
        simp only [sessionsWith]
        rw [List.filter_cons_of_neg]
        simp [hl]
      simp only [accumTotals, hl]
      rw [ih pt0 hname, hneg]

theorem accumTotals_none_closed (p : String) :
    ∀ sessions : List SessionData,
      accumTotals p none sessions =
        match sessionsWith p sessions with
        | [] => none
        | s0 :: rest =>
          some
            ⟨p,
              sumList ((objLookup s0.results p).getD []) +
                (rest.map (fun s => sumList ((objLookup s.results p).getD []))).sum,
              1 + rest.length,
              foldDates s0.date (rest.map (fun s => s.date))⟩ := by
  intro sessions
  induction sessions with
  | nil => rfl
  | cons s rest ih =>
    cases hl : objLookup s.results p with
    | some bcs =>
      have hpos : (sessionsWith p (s :: rest)) = s :: sessionsWith p rest := by
        simp only [sessionsWith]
        rw [List.filter_cons_of_pos]
        simp [hl]
      simp only [accumTotals, hl]
      rw [accumTotals_some_closed p rest (updInit s.date p bcs none) rfl, hpos]
      simp only [updInit, hl, Option.getD_some]
    | none =>
      have hneg : (sessionsWith p (s :: rest)) = sessionsWith p rest := by
        simp only [sessionsWith]
        rw [List.filter_cons_of_neg]
        simp [hl]
      simp only [accumTotals, hl]
      rw [ih, hneg]

theorem foldDates_mem : ∀ (ds : List String) (d0 : String), foldDates d0 ds ∈ d0 :: ds := by
  intro ds
  induction ds with
  | nil => intro d0; simp [foldDates]
  | cons d ds ih =>
    intro d0
    have : foldDates d0 (d :: ds) = foldDates (if d0 < d then d else d0) ds := rfl
    rw [this]
    by_cases hlt : d0 < d
    · rw [if_pos hlt]
      rcases List.mem_cons.mp (ih d) with h | h
      · rw [h]
        exact List.mem_cons_of_mem d0 (List.mem_cons_self d ds)
      · exact List.mem_cons_of_mem d0 (List.mem_cons_of_mem d h)
    · rw [if_neg hlt]
      rcases List.mem_cons.mp (ih d0) with h | h
      · rw [h]
        exact List.mem_cons_self d0 (d :: ds)
      · exact List.mem_cons_of_mem d0 (List.mem_cons_of_mem d h)

theorem le_foldDates : ∀ (ds : List String) (d0 d : String),
    d ∈ d0 :: ds → d ≤ foldDates d0 ds := by
  intro ds
  induction ds with
  | nil =>
    intro d0 d h
    rcases List.mem_cons.mp h with rfl | h
    · exact le_refl d
    · cases h
  | cons x ds ih =>
    intro d0 d h
    have hstep : foldDates d0 (x :: ds) = foldDates (if d0 < x then x else d0) ds := rfl
    rw [hstep]
    have hd0 : d0 ≤ (if d0 < x then x else d0) := by
      by_cases hlt : d0 < x
      · rw [if_pos hlt]; exact le_of_lt hlt
      · rw [if_neg hlt]
    have hx : x ≤ (if d0 < x then x else d0) := by
      by_cases hlt : d0 < x
      · rw [if_pos hlt]
      · rw [if_neg hlt]; exact le_of_not_lt hlt
    rcases List.mem_cons.mp h with rfl | h
    · exact le_trans hd0 (ih _ _ (List.mem_cons_self _ ds))
    · rcases List.mem_cons.mp h with rfl | h
      · exact le_trans hx (ih _ _ (List.mem_cons_self _ ds))
      · exact ih _ d (List.mem_cons_of_mem _ h)

theorem insertTotalDesc_perm (x : PlayerTotal) :
    ∀ l : List PlayerTotal, (insertTotalDesc x l).Perm (x :: l) := by
  intro l
  induction l with
  | nil => exact List.Perm.refl _
  | cons y ys ih =>
    rw [insertTotalDesc]
    by_cases h : y.total ≤ x.total
    · rw [if_pos h]
    · rw [if_neg h]
      exact (ih.cons y).trans (List.Perm.swap x y ys)

theorem sortTotalsDesc_perm : ∀ l : List PlayerTotal, (sortTotalsDesc l).Perm l := by
  intro l
  induction l with
  | nil => exact List.Perm.refl _
  | cons x xs ih =>
    show (insertTotalDesc x (sortTotalsDesc xs)).Perm (x :: xs)
    exact (insertTotalDesc_perm x (sortTotalsDesc xs)).trans (ih.cons x)

theorem insertTotalDesc_pairwise (x : PlayerTotal) :
    ∀ l : List PlayerTotal, l.Pairwise (fun a b => b.total ≤ a.total) →
      (insertTotalDesc x l).Pairwise (fun a b => b.total ≤ a.total) := by
  intro l
  induction l with
  | nil => intro _; exact List.pairwise_singleton _ x
  | cons y ys ih =>
    intro hp
    rw [insertTotalDesc]
    by_cases h : y.total ≤ x.total
    · rw [if_pos h]
      refine List.Pairwise.cons ?_ hp
      intro z hz
      rcases List.mem_cons.mp hz with rfl | hz
      · exact h
      · exact le_trans (List.rel_of_pairwise_cons hp hz) h
    · rw [if_neg h]
      refine List.Pairwise.cons ?_ (ih (List.Pairwise.of_cons hp))
      intro z hz
      rcases List.mem_cons.mp ((insertTotalDesc_perm x ys).mem_iff.mp hz) with rfl | hz
      · exact le_of_lt (lt_of_not_le h)
      · exact List.rel_of_pairwise_cons hp hz

theorem sortTotalsDesc_pairwise :
    ∀ l : List PlayerTotal, (sortTotalsDesc l).Pairwise (fun a b => b.total ≤ a.total) := by
  intro l
  induction l with
  | nil => exact List.Pairwise.nil
  | cons x xs ih => exact insertTotalDesc_pairwise x (sortTotalsDesc xs) ih

theorem filter_insertTotalDesc (x : PlayerTotal) (t : ℚ) :
    ∀ l : List PlayerTotal,
      (insertTotalDesc x l).filter (fun y => y.total = t) =
        if x.total = t then x :: l.filter (fun y => y.total = t)
        else l.filter (fun y => y.total = t) := by
  intro l
  induction l with
  | nil =>
    by_cases hx : x.total = t
    · rw [if_pos hx]
      simp [insertTotalDesc, List.filter, hx]
    · rw [if_neg hx]
      simp [insertTotalDesc, List.filter, hx]
  | cons y ys ih =>
    rw [insertTotalDesc]
    by_cases h : y.total ≤ x.total
    · rw [if_pos h]
      by_cases hx : x.total = t
      · rw [if_pos hx, List.filter_cons, if_pos (by simpa using hx)]
      · rw [if_neg hx, List.filter_cons, if_neg (by simpa using hx)]
    · rw [if_neg h, List.filter_cons]
      by_cases hy : y.total = t
      · rw [if_pos (by simpa using hy), ih]
        by_cases hx : x.total = t
        · exact absurd (le_of_eq (hy.trans hx.symm)) h
        · rw [if_neg hx, if_neg hx, List.filter_cons, if_pos (by simpa using hy)]
      · rw [if_neg (by simpa using hy), ih]
        by_cases hx : x.total = t
        · rw [if_pos hx, if_pos hx, List.filter_cons, if_neg (by simpa using hy)]
        · rw [if_neg hx, if_neg hx, List.filter_cons, if_neg (by simpa using hy)]

theorem filter_sortTotalsDesc (t : ℚ) :
    ∀ l : List PlayerTotal,
      (sortTotalsDesc l).filter (fun y => y.total = t) = l.filter (fun y => y.total = t) := by
  intro l
  induction l with
  | nil => rfl
  | cons x xs ih =>
    show (insertTotalDesc x (sortTotalsDesc xs)).filter _ = _
    rw [filter_insertTotalDesc, List.filter_cons]
    by_cases hx : x.total = t
    · rw [if_pos hx, if_pos (by simpa using hx), ih]
    · rw [if_neg hx, if_neg (by simpa using hx), ih]

theorem collectAllPlayers_eq_foldl :
    ∀ (sessions : List SessionData) (acc : List String),
      sessions.foldl
        (fun acc s => s.results.foldl (fun a e => if e.1 ∈ a then a else a ++ [e.1]) acc) acc =
      sessions.foldl (fun ks s => seenFold ks (s.results.map Prod.fst)) acc := by
  intro sessions
  induction sessions with
  | nil => intro acc; rfl
  | cons s rest ih =>
    intro acc
    rw [List.foldl_cons, List.foldl_cons, ih]
    congr 1
    rw [seenFold, List.foldl_map]

theorem keys_totalsObj_foldl :
    ∀ (sessions : List SessionData) (acc : List (String × PlayerTotal)),
      ((sessions.foldl
        (fun acc s => s.results.foldl (fun a e => processEntry s.date a e.1 e.2) acc)
        acc).map Prod.fst) =
      sessions.foldl (fun ks s => seenFold ks (s.results.map Prod.fst)) (acc.map Prod.fst) := by
  intro sessions
  induction sessions with
  | nil => intro acc; rfl
  | cons s rest ih =>
    intro acc
    rw [List.foldl_cons, List.foldl_cons, ih, keys_sessionFold]

/-- The key order of the `playerTotals` object equals the first-encounter
order of players across the sessions (the same fold as the `allPlayers`
set of `generateChartData`). -/
theorem keys_totalsObj (sessions : List SessionData) :
    (totalsObj sessions).map Prod.fst = collectAllPlayers sessions := by
  rw [totalsObj, keys_totalsObj_foldl, collectAllPlayers, collectAllPlayers_eq_foldl]
  rfl

theorem nodup_foldl_seenFold :
    ∀ (sessions : List SessionData) (acc : List String), acc.Nodup →
      (sessions.foldl (fun ks s => seenFold ks (s.results.map Prod.fst)) acc).Nodup := by
  intro sessions
  induction sessions with
  | nil => intro acc h; exact h
  | cons s rest ih =>
    intro acc h
    exact ih _ (seenFold_nodup _ acc h)

theorem collectAllPlayers_nodup (sessions : List SessionData) :
    (collectAllPlayers sessions).Nodup := by
  rw [collectAllPlayers, collectAllPlayers_eq_foldl]
  exact nodup_foldl_seenFold sessions [] List.nodup_nil

theorem mem_foldl_seenFold (p : String) :
    ∀ (sessions : List SessionData) (acc : List String),
      p ∈ sessions.foldl (fun ks s => seenFold ks (s.results.map Prod.fst)) acc ↔
        p ∈ acc ∨ ∃ s ∈ sessions, p ∈ s.results.map Prod.fst := by
  intro sessions
  induction sessions with
  | nil => intro acc; simp
  | cons s rest ih =>
    intro acc
    rw [List.foldl_cons, ih, mem_seenFold]
    constructor
    · rintro ((h | h) | ⟨s', hs', hp⟩)
      · exact Or.inl h
      · exact Or.inr ⟨s, List.mem_cons_self s rest, h⟩
      · exact Or.inr ⟨s', List.mem_cons_of_mem s hs', hp⟩
    · rintro (h | ⟨s', hs', hp⟩)
      · exact Or.inl (Or.inl h)
      · rcases List.mem_cons.mp hs' with rfl | hs'
        · exact Or.inl (Or.inr hp)
        · exact Or.inr ⟨s', hs', hp⟩

theorem mem_collectAllPlayers (p : String) (sessions : List SessionData) :
    p ∈ collectAllPlayers sessions ↔ ∃ s ∈ sessions, p ∈ s.results.map Prod.fst := by
  rw [collectAllPlayers, collectAllPlayers_eq_foldl, mem_foldl_seenFold]
  simp

theorem totalsObj_nodup_keys (sessions : List SessionData) :
    ((totalsObj sessions).map Prod.fst).Nodup := by
  rw [keys_totalsObj]
  exact collectAllPlayers_nodup sessions

theorem totalsObj_name_eq_key (sessions : List SessionData) :
    ∀ e ∈ totalsObj sessions, e.2.name = e.1 := by
  have gen : ∀ (ss : List SessionData) (acc : List (String × PlayerTotal)),
      (∀ e ∈ acc, e.2.name = e.1) →
      ∀ e ∈ ss.foldl
        (fun acc s => s.results.foldl (fun a e => processEntry s.date a e.1 e.2) acc) acc,
        e.2.name = e.1 := by
    intro ss
    induction ss with
    | nil => intro acc h e he; exact h e he
    | cons s rest ih =>
      intro acc h e he
      refine ih _ ?_ e he
      intro e' he'
      rcases mem_sessionFold s.date s.results acc e' he' with h1 | h1
      · exact h e' h1
      · exact h1
  intro e he
  exact gen sessions [] (by intro e' he'; cases he') e he

theorem objLookup_eq_of_mem_nodup (m : List (String × α)) (e : String × α)
    (h : e ∈ m) (hnd : (m.map Prod.fst).Nodup) : objLookup m e.1 = some e.2 := by
  induction m with
  | nil => cases h
  | cons x m ih =>
    rw [objLookup_cons]
    rcases List.mem_cons.mp h with rfl | h1
    · rw [if_pos rfl]
    · by_cases hx : x.1 = e.1
      · exfalso
        rw [List.map_cons] at hnd
        exact (List.nodup_cons.mp hnd).1 (hx ▸ List.mem_map.mpr ⟨e, h1, rfl⟩)
      · rw [if_neg hx]
        exact ih h1 (by rw [List.map_cons] at hnd; exact (List.nodup_cons.mp hnd).2)

theorem objLookup_mem (m : List (String × α)) (k : String) (v : α)
    (h : objLookup m k = some v) : (k, v) ∈ m := by
  induction m with
  | nil => cases h
  | cons e m ih =>
    rw [objLookup_cons] at h
    by_cases he : e.1 = k
    · rw [if_pos he] at h
      have hev : e = (k, v) := by
        rcases e with ⟨a, b⟩
        cases h
        cases he
        rfl
      rw [← hev]
      exact List.mem_cons_self e m
    · rw [if_neg he] at h
      exact List.mem_cons_of_mem e (ih h)

theorem lastIdxFrom_eq_of_last (p : String) :
    ∀ (ps : List String) (n j : Nat) (hj : j < ps.length),
      ps.get ⟨j, hj⟩ = p →
      (∀ m (hm : m < ps.length), ps.get ⟨m, hm⟩ = p → m ≤ j) →
      lastIdxFrom ps n p = some (n + j) := by
  intro ps
  induction ps with
  | nil => intro n j hj _ _; cases hj
  | cons q rest ih =>
    intro n j hj hget hlast
    cases j with
    | zero =>
      have hq : q = p := hget
      have hnr : p ∉ rest := by
        intro hmem
        rcases List.mem_iff_get.mp hmem with ⟨⟨m, hm⟩, hgm⟩
        have : m + 1 ≤ 0 := hlast (m + 1) (by simpa using Nat.succ_lt_succ hm) hgm
        omega
      rw [lastIdxFrom, lastIdxFrom_of_not_mem p rest (n + 1) hnr, if_pos hq]
      simp
    | succ m =>
      have hm : m < rest.length := by simpa using hj
      have hget' : rest.get ⟨m, hm⟩ = p := hget
      have hlast' : ∀ i (hi : i < rest.length), rest.get ⟨i, hi⟩ = p → i ≤ m := by
        intro i hi hgi
        have := hlast (i + 1) (by simpa using Nat.succ_lt_succ hi) hgi
        omega
      rw [lastIdxFrom, ih (n + 1) m hm hget' hlast']
      have : n + 1 + m = n + (m + 1) := by omega
      rw [this]

theorem assoc_filter_nil (m : List (String × α)) (p : String)
    (h : p ∉ m.map Prod.fst) : m.filter (fun e => e.1 = p) = [] := by
  induction m with
  | nil => rfl
  | cons e m ih =>
    have he : e.1 ≠ p := fun hq => h (by simp [hq])
    rw [List.filter_cons, if_neg (by simpa using he)]
    exact ih (fun hq => h (by simp; tauto))

theorem assoc_filter_length_one (m : List (String × α)) (p : String)
    (hnd : (m.map Prod.fst).Nodup) (hp : p ∈ m.map Prod.fst) :
    (m.filter (fun e => e.1 = p)).length = 1 := by
  induction m with
  | nil => cases hp
  | cons e m ih =>
    rw [List.map_cons] at hnd hp
    by_cases he : e.1 = p
    · rw [List.filter_cons, if_pos (by simpa using he),
        assoc_filter_nil m p (he ▸ (List.nodup_cons.mp hnd).1)]
      rfl
    · rcases List.mem_cons.mp hp with h1 | h1
      · exact absurd h1.symm he
      · rw [List.filter_cons, if_neg (by simpa using he)]
        exact ih (List.nodup_cons.mp hnd).2 h1

theorem objLookup_totalsObj (sessions : List SessionData) (p : String)
    (hnd : ∀ s ∈ sessions, (s.results.map Prod.fst).Nodup) :
    objLookup (totalsObj sessions) p = accumTotals p none sessions := by
  rw [totalsObj]
  exact objLookup_totalsFold p sessions [] hnd

theorem totals_entry_unique (sessions : List SessionData) (p : String) (PT : PlayerTotal)
    (h : objLookup (totalsObj sessions) p = some PT) :
    PT ∈ calculatePlayerTotals sessions ∧ PT.name = p ∧
      (∀ pt' ∈ calculatePlayerTotals sessions, pt'.name = p → pt' = PT) := by
  have hmem : (p, PT) ∈ totalsObj sessions := objLookup_mem _ p PT h
  have hname : PT.name = p := totalsObj_name_eq_key sessions (p, PT) hmem
  refine ⟨?_, hname, ?_⟩
  · exact (sortTotalsDesc_perm _).mem_iff.mpr
      (List.mem_map.mpr ⟨(p, PT), hmem, rfl⟩)
  · intro pt' hpt' hpname
    rcases List.mem_map.mp ((sortTotalsDesc_perm _).mem_iff.mp hpt') with ⟨e, he, hee⟩
    have : e.1 = p := by
      rw [← totalsObj_name_eq_key sessions e he, hee, hpname]
    have hle : objLookup (totalsObj sessions) e.1 = some e.2 :=
      objLookup_eq_of_mem_nodup _ e he (totalsObj_nodup_keys sessions)
    rw [this, h] at hle
    rw [← hee]
    exact (Option.some_inj.mp hle).symm

/-- Claim C5: for every session list (each session's `results` being a
genuine mapping: no duplicate keys) and every player appearing in some
session, `calculatePlayerTotals` contains an entry for that player whose
`total` is the sum over the sessions containing the player of the sum of
that player's delta sequence, whose `sessions` is the number of sessions
containing the player, and whose `lastSession` is the maximum session
identifier (`date`, by string comparison) among those sessions; the entry
is unique. -/
theorem claim_C5 (sessions : List SessionData) (p : String)
    (hnd : ∀ s ∈ sessions, (s.results.map Prod.fst).Nodup)
    (happ : ∃ s ∈ sessions, p ∈ s.results.map Prod.fst) :
    ∃ pt ∈ calculatePlayerTotals sessions,
      pt.name = p ∧
      pt.total = ((sessionsWith p sessions).map
          (fun s => sumList ((objLookup s.results p).getD []))).sum ∧
      pt.sessions = (sessionsWith p sessions).length ∧
      pt.lastSession ∈ (sessionsWith p sessions).map (fun s => s.date) ∧
      (∀ d ∈ (sessionsWith p sessions).map (fun s => s.date), d ≤ pt.lastSession) ∧
      (∀ pt' ∈ calculatePlayerTotals sessions, pt'.name = p → pt' = pt) := by
  rcases happ with ⟨s, hs, hp⟩
  have hsome : (objLookup s.results p).isSome := (objLookup_isSome_iff _ p).mpr hp
  have hsmem : s ∈ sessionsWith p sessions :=
    List.mem_filter.mpr ⟨hs, by simpa using hsome⟩
  rcases hsw : sessionsWith p sessions with _ | ⟨s0, srest⟩
  · rw [hsw] at hsmem
    cases hsmem
  · have hlk : objLookup (totalsObj sessions) p =
        some ⟨p,
          sumList ((objLookup s0.results p).getD []) +
            (srest.map (fun s => sumList ((objLookup s.results p).getD []))).sum,
          1 + srest.length,
          foldDates s0.date (srest.map (fun s => s.date))⟩ := by
      rw [objLookup_totalsObj sessions p hnd, accumTotals_none_closed p sessions, hsw]
    rcases totals_entry_unique sessions p _ hlk with ⟨hmem, hname, huniq⟩
    refine ⟨_, hmem, hname, ?_, ?_, ?_, ?_, huniq⟩
    · show sumList ((objLookup s0.results p).getD []) +
          (srest.map (fun s => sumList ((objLookup s.results p).getD []))).sum =
          ((s0 :: srest).map (fun s => sumList ((objLookup s.results p).getD []))).sum
      rw [List.map_cons, List.sum_cons]
    · show 1 + srest.length = (s0 :: srest).length
      rw [List.length_cons]
      omega
    · show foldDates s0.date (srest.map (fun s => s.date)) ∈
        (s0 :: srest).map (fun s => s.date)
      rw [List.map_cons]
      exact foldDates_mem _ s0.date
    · intro d hd
      rw [List.map_cons] at hd
      exact le_foldDates _ s0.date d hd

/-- Witness sessions for the aggregation claims. -/
def exS1 : SessionData :=
  ⟨"2025-01-01", "2025-01-01", ["Alice", "Bob"], [("Alice", [10, -5]), ("Bob", [-10, 5])]⟩

/-- Second witness session. -/
def exS2 : SessionData :=
  ⟨"2025-01-02", "2025-01-02", ["Alice", "Bob"], [("Alice", [10, -10]), ("Bob", [-10, 10])]⟩

/-- Witness for C5 at a concrete two-session input. -/
theorem claim_C5_witness :
    (∀ s ∈ [exS1, exS2], (s.results.map Prod.fst).Nodup) ∧
    (∃ s ∈ [exS1, exS2], "Alice" ∈ s.results.map Prod.fst) ∧
    ∃ pt ∈ calculatePlayerTotals [exS1, exS2],
      pt.name = "Alice" ∧
      pt.total = ((sessionsWith "Alice" [exS1, exS2]).map
          (fun s => sumList ((objLookup s.results "Alice").getD []))).sum ∧
      pt.sessions = (sessionsWith "Alice" [exS1, exS2]).length ∧
      pt.lastSession ∈ (sessionsWith "Alice" [exS1, exS2]).map (fun s => s.date) ∧
      (∀ d ∈ (sessionsWith "Alice" [exS1, exS2]).map (fun s => s.date), d ≤ pt.lastSession) ∧
      (∀ pt' ∈ calculatePlayerTotals [exS1, exS2], pt'.name = "Alice" → pt' = pt) := by
  have h1 : ∀ s ∈ [exS1, exS2], (s.results.map Prod.fst).Nodup := by
    intro s hs
    rcases List.mem_cons.mp hs with rfl | hs
    · with_unfolding_all decide
    · rcases List.mem_cons.mp hs with rfl | hs
      · with_unfolding_all decide
      · cases hs
  have h2 : ∃ s ∈ [exS1, exS2], "Alice" ∈ s.results.map Prod.fst :=
    ⟨exS1, List.mem_cons_self _ _, by with_unfolding_all decide⟩
  exact ⟨h1, h2, claim_C5 [exS1, exS2] "Alice" h1 h2⟩

/-- Claim C6: `calculatePlayerTotals` output is sorted non-increasing by
`total`; ties keep the order of the unsorted `Object.values(playerTotals)`
sequence, whose name order is exactly the first-encounter order of the
players across the sessions in input order. -/
theorem claim_C6 (sessions : List SessionData) :
    (calculatePlayerTotals sessions).Pairwise (fun a b => b.total ≤ a.total) ∧
    (∀ t : ℚ, (calculatePlayerTotals sessions).filter (fun x => x.total = t) =
      ((totalsObj sessions).map (fun e => e.2)).filter (fun x => x.total = t)) ∧
    ((totalsObj sessions).map (fun e => e.2)).map (fun pt => pt.name) =
      collectAllPlayers sessions := by
  refine ⟨sortTotalsDesc_pairwise _, ?_, ?_⟩
  · intro t
    exact filter_sortTotalsDesc t _
  · rw [List.map_map, ← keys_totalsObj]
    apply List.map_congr_left
    intro e he
    exact totalsObj_name_eq_key sessions e he

/-- Claim C10: when the header repeats a player name, the normalized
session's `results` mapping has exactly one entry for that name, holding
the delta sequence of the LAST column with that name (`j` below; earlier
columns' data is discarded), while `players` still lists the name once per
column; `calculatePlayerTotals` consequently counts such a session once
for the player, using only the last column's deltas. -/
theorem claim_C10 (id : String) (table : RawTable) (p : String) (j : Nat)
    (hj : j < table.players.length)
    (hpj : table.players.get ⟨j, hj⟩ = p)
    (hlast : ∀ m (hm : m < table.players.length), table.players.get ⟨m, hm⟩ = p → m ≤ j)
    (_hdup : ∃ k, ∃ (hk : k < table.players.length),
      k ≠ j ∧ table.players.get ⟨k, hk⟩ = p) :
    objLookup (normalizeSession id table).results p =
      some (table.results.map (fun row => row.getD j 0)) ∧
    ((normalizeSession id table).results.filter (fun e => e.1 = p)).length = 1 ∧
    (normalizeSession id table).players = table.players ∧
    (∃ pt ∈ calculatePlayerTotals [normalizeSession id table],
      pt.name = p ∧ pt.sessions = 1 ∧
      pt.total = sumList (table.results.map (fun row => row.getD j 0))) ∧
    (∀ pt ∈ calculatePlayerTotals [normalizeSession id table], pt.name = p →
      pt.sessions = 1 ∧
      pt.total = sumList (table.results.map (fun row => row.getD j 0))) := by
  have hlk : objLookup (normalizeSession id table).results p =
      some (table.results.map (fun row => row.getD j 0)) := by
    rw [normalizeSession_results_lookup, lastIdxFrom_eq_of_last p table.players 0 j hj hpj hlast]
    simp
  have hkeys : ((normalizeSession id table).results.map Prod.fst).Nodup := by
    rw [normalizeSession_results_keys]
    exact seenFold_nodup _ [] List.nodup_nil
  have hpmem : p ∈ (normalizeSession id table).results.map Prod.fst :=
    (objLookup_isSome_iff _ p).mp (by rw [hlk]; rfl)
  have hnd1 : ∀ s ∈ [normalizeSession id table], (s.results.map Prod.fst).Nodup := by
    intro s hs
    rcases List.mem_cons.mp hs with rfl | hs
    · exact hkeys
    · cases hs
  have hsw : sessionsWith p [normalizeSession id table] = [normalizeSession id table] := by
    rw [sessionsWith, List.filter_cons_of_pos]
    · rfl
    · simp [hlk]
  have hacc : objLookup (totalsObj [normalizeSession id table]) p =
      some ⟨p,
        sumList ((objLookup (normalizeSession id table).results p).getD []) +
          (([] : List SessionData).map
            (fun s => sumList ((objLookup s.results p).getD []))).sum,
        1 + ([] : List SessionData).length,
        foldDates (normalizeSession id table).date
          (([] : List SessionData).map (fun s => s.date))⟩ := by
    rw [objLookup_totalsObj _ p hnd1, accumTotals_none_closed p _, hsw]
  rcases totals_entry_unique _ p _ hacc with ⟨hmem, hname, huniq⟩
  have hfields : (⟨p,
      sumList ((objLookup (normalizeSession id table).results p).getD []) +
        (([] : List SessionData).map
          (fun s => sumList ((objLookup s.results p).getD []))).sum,
      1 + ([] : List SessionData).length,
      foldDates (normalizeSession id table).date
        (([] : List SessionData).map (fun s => s.date))⟩ : PlayerTotal).sessions = 1 ∧
      (⟨p,
      sumList ((objLookup (normalizeSession id table).results p).getD []) +
        (([] : List SessionData).map
          (fun s => sumList ((objLookup s.results p).getD []))).sum,
      1 + ([] : List SessionData).length,
      foldDates (normalizeSession id table).date
        (([] : List SessionData).map (fun s => s.date))⟩ : PlayerTotal).total =
        sumList (table.results.map (fun row => row.getD j 0)) := by
    constructor
    · rfl
    · show sumList ((objLookup (normalizeSession id table).results p).getD []) +
        (([] : List (List ℚ)).map sumList).sum = _
      rw [hlk, Option.getD_some]
      simp
  refine ⟨hlk, ?_, rfl, ⟨_, hmem, hname, hfields.1, hfields.2⟩, ?_⟩
  · exact assoc_filter_length_one _ p hkeys hpmem
  · intro pt hpt hpname
    rw [huniq pt hpt hpname]
    exact hfields

/-- Witness for C10: header `["A", "A"]`, rows `[[1, 2], [3, 4]]`; the kept
column is the second (`j = 1`), so A's deltas are `[2, 4]` and A's total
is `6` over exactly one session. -/
theorem claim_C10_witness :
    ((["A", "A"] : List String).get ⟨1, by decide⟩ = "A") ∧
    objLookup (normalizeSession "2025-01-01" ⟨["A", "A"], [[1, 2], [3, 4]]⟩).results "A" =
      some [2, 4] ∧
    ((normalizeSession "2025-01-01" ⟨["A", "A"], [[1, 2], [3, 4]]⟩).results.filter
      (fun e => e.1 = "A")).length = 1 ∧
    (normalizeSession "2025-01-01" ⟨["A", "A"], [[1, 2], [3, 4]]⟩).players = ["A", "A"] ∧
    (∃ pt ∈ calculatePlayerTotals [normalizeSession "2025-01-01" ⟨["A", "A"], [[1, 2], [3, 4]]⟩],
      pt.name = "A" ∧ pt.sessions = 1 ∧ pt.total = 6) := by
  have h := claim_C10 "2025-01-01" ⟨["A", "A"], [[1, 2], [3, 4]]⟩ "A" 1
    (by decide) (by with_unfolding_all rfl)
    (by intro m hm _; simp at hm; omega)
    ⟨0, by decide, by decide, by with_unfolding_all rfl⟩
  refine ⟨by with_unfolding_all rfl, ?_, h.2.1, h.2.2.1, ?_⟩
  · rw [h.1]
    with_unfolding_all rfl
  · rcases h.2.2.2.1 with ⟨pt, hpt, hn, hs, ht⟩
    refine ⟨pt, hpt, hn, hs, ?_⟩
    rw [ht]
    with_unfolding_all rfl

/-! ## generateChartData lemmas -/

/-- Default point used with `List.getD` when indexing chart output. -/
def emptyPoint : ChartDataPoint := ⟨"", "", 0, []⟩

theorem numBalanceChanges_nil (s : SessionData) (h : s.results = []) :
    numBalanceChanges s = 0 := by
  rw [numBalanceChanges, h]

theorem numBalanceChanges_cons (s : SessionData) (e : String × List ℚ)
    (rest : List (String × List ℚ)) (h : s.results = e :: rest) :
    numBalanceChanges s = e.2.length := by
  rw [numBalanceChanges, h]
  simp [objLookup_cons]

/-- Under the per-session uniformity hypothesis, every delta sequence has
length `numBalanceChanges` (the first enumerated player's length). -/
theorem uniform_length (s : SessionData)
    (h : ∀ e1 ∈ s.results, ∀ e2 ∈ s.results, e1.2.length = e2.2.length) :
    ∀ e ∈ s.results, e.2.length = numBalanceChanges s := by
  intro e he
  cases hr : s.results with
  | nil => rw [hr] at he; cases he
  | cons e0 rest =>
    rw [numBalanceChanges_cons s e0 rest hr]
    exact h e (he) e0 (by rw [hr]; exact List.mem_cons_self e0 rest)

theorem stepRound_nil (i : Nat) (rt : List (String × ℚ)) :
    stepRound [] i rt = rt := rfl

theorem stepRound_cons (e : String × List ℚ) (rest : List (String × List ℚ))
    (i : Nat) (rt : List (String × ℚ)) :
    stepRound (e :: rest) i rt =
      stepRound rest i (objInsert rt e.1 ((objLookup rt e.1).getD 0 + e.2.getD i 0)) := rfl

theorem keys_stepRound (i : Nat) :
    ∀ (results : List (String × List ℚ)) (rt : List (String × ℚ)),
      (∀ e ∈ results, e.1 ∈ rt.map Prod.fst) →
      (stepRound results i rt).map Prod.fst = rt.map Prod.fst := by
  intro results
  induction results with
  | nil => intro rt _; rfl
  | cons e rest ih =>
    intro rt h
    rw [stepRound_cons]
    have hk := keys_objInsert_of_mem rt e.1 ((objLookup rt e.1).getD 0 + e.2.getD i 0)
      (h e (List.mem_cons_self e rest))
    rw [ih _ (by intro x hx; rw [hk]; exact h x (List.mem_cons_of_mem e hx)), hk]

theorem objLookup_stepRound_absent (i : Nat) (p : String) :
    ∀ (results : List (String × List ℚ)) (rt : List (String × ℚ)),
      p ∉ results.map Prod.fst →
      objLookup (stepRound results i rt) p = objLookup rt p := by
  intro results
  induction results with
  | nil => intro rt _; rfl
  | cons e rest ih =>
    intro rt h
    have he : e.1 ≠ p := fun hq => h (by simp [hq])
    rw [stepRound_cons, ih _ (fun hq => h (by simp; tauto)),
      objLookup_objInsert_ne _ _ _ _ he]

theorem objLookup_stepRound (i : Nat) (p : String) :
    ∀ (results : List (String × List ℚ)) (rt : List (String × ℚ)),
      p ∈ rt.map Prod.fst →
      objLookup (stepRound results i rt) p =
        some ((objLookup rt p).getD 0 +
          ((results.filter (fun e => e.1 = p)).map (fun e => e.2.getD i 0)).sum) := by
  intro results
  induction results with
  | nil =>
    intro rt h
    rcases Option.isSome_iff_exists.mp ((objLookup_isSome_iff rt p).mpr h) with ⟨v, hv⟩
    rw [stepRound_nil, hv]
    simp
  | cons e rest ih =>
    intro rt h
    rw [stepRound_cons]
    by_cases he : e.1 = p
    · have hem : e.1 ∈ rt.map Prod.fst := by rw [he]; exact h
      have hk := keys_objInsert_of_mem rt e.1 ((objLookup rt e.1).getD 0 + e.2.getD i 0) hem
      rw [ih _ (by rw [hk]; exact h), List.filter_cons, if_pos (by simpa using he),
        List.map_cons, List.sum_cons]
      rw [he, objLookup_objInsert_self]
      rcases Option.isSome_iff_exists.mp ((objLookup_isSome_iff rt p).mpr h) with ⟨v, hv⟩
      rw [hv]
      simp only [Option.getD_some]
      congr 1
      ring
    · have hp1 : p ∈ (objInsert rt e.1 ((objLookup rt e.1).getD 0 + e.2.getD i 0)).map
          Prod.fst := by
        rw [keys_objInsert]
        by_cases hm : e.1 ∈ rt.map Prod.fst
        · rw [if_pos hm]
          exact h
        · rw [if_neg hm]
          exact List.mem_append_left _ h
      rw [ih _ hp1, List.filter_cons, if_neg (by simpa using he),
        objLookup_objInsert_ne _ _ _ _ he]

/-- Sum of the running-totals values of a chart frame. -/
def rtSum (rt : List (String × ℚ)) : ℚ := (rt.map (fun e => e.2)).sum

theorem rtSum_cons (e : String × ℚ) (rt : List (String × ℚ)) :
    rtSum (e :: rt) = e.2 + rtSum rt := by
  rw [rtSum, List.map_cons, List.sum_cons]
  rfl

theorem replace_eq_self_of_not_mem (m : List (String × α)) (k : String) (v : α)
    (h : k ∉ m.map Prod.fst) :
    m.map (fun e => if e.1 = k then (k, v) else e) = m := by
  have : ∀ e ∈ m, (if e.1 = k then (k, v) else e) = e := by
    intro e he
    rw [if_neg (fun hk => h (List.mem_map.mpr ⟨e, he, hk⟩))]
  calc m.map (fun e => if e.1 = k then (k, v) else e) = m.map id := List.map_congr_left this
  _ = m := List.map_id m

theorem rtSum_objInsert_add (k : String) (d : ℚ) :
    ∀ (rt : List (String × ℚ)), (rt.map Prod.fst).Nodup → k ∈ rt.map Prod.fst →
      rtSum (objInsert rt k ((objLookup rt k).getD 0 + d)) = rtSum rt + d := by
  intro rt
  induction rt with
  | nil => intro _ h; cases h
  | cons e m ih =>
    intro hnd hm
    by_cases he : e.1 = k
    · have hk : k ∉ m.map Prod.fst := by
        rw [List.map_cons] at hnd
        exact he ▸ (List.nodup_cons.mp hnd).1
      rw [objInsert_of_mem _ _ _ hm, List.map_cons, if_pos he,
        replace_eq_self_of_not_mem m k _ hk, objLookup_cons, if_pos he]
      rw [rtSum_cons, rtSum_cons]
      simp only [Option.getD_some]
      ring
    · have hm' : k ∈ m.map Prod.fst := by
        rw [List.map_cons] at hm
        rcases List.mem_cons.mp hm with h1 | h1
        · exact absurd h1.symm he
        · exact h1
      have hnd' : (m.map Prod.fst).Nodup := by
        rw [List.map_cons] at hnd
        exact (List.nodup_cons.mp hnd).2
      rw [objInsert_of_mem _ _ _ hm, List.map_cons, if_neg he, objLookup_cons, if_neg he,
        ← objInsert_of_mem m k _ hm']
      rw [rtSum_cons, ih hnd' hm', rtSum_cons]
      ring

theorem rtSum_stepRound (i : Nat) :
    ∀ (results : List (String × List ℚ)) (rt : List (String × ℚ)),
      (∀ e ∈ results, e.1 ∈ rt.map Prod.fst) → (rt.map Prod.fst).Nodup →
      rtSum (stepRound results i rt) =
        rtSum rt + (results.map (fun e => e.2.getD i 0)).sum := by
  intro results
  induction results with
  | nil => intro rt _ _; rw [stepRound_nil, List.map_nil, List.sum_nil, add_zero]
  | cons e rest ih =>
    intro rt h hnd
    have hm : e.1 ∈ rt.map Prod.fst := h e (List.mem_cons_self e rest)
    have hk := keys_objInsert_of_mem rt e.1 ((objLookup rt e.1).getD 0 + e.2.getD i 0) hm
    rw [stepRound_cons, ih _ (by intro x hx; rw [hk]; exact h x (List.mem_cons_of_mem e hx))
      (by rw [hk]; exact hnd), rtSum_objInsert_add e.1 (e.2.getD i 0) rt hnd hm,
      List.map_cons, List.sum_cons]
    ring

theorem runRounds_zero (s : SessionData) (rt : List (String × ℚ)) (i : Nat) :
    runRounds s rt i 0 = ([], rt) := rfl

theorem runRounds_succ (s : SessionData) (rt : List (String × ℚ)) (i k : Nat) :
    runRounds s rt i (k + 1) =
      ((⟨s.date, s.sessionName, i + 1, stepRound s.results i rt⟩ : ChartDataPoint) ::
          (runRounds s (stepRound s.results i rt) (i + 1) k).1,
        (runRounds s (stepRound s.results i rt) (i + 1) k).2) := rfl

theorem runRounds_length (s : SessionData) :
    ∀ (k i : Nat) (rt : List (String × ℚ)), (runRounds s rt i k).1.length = k := by
  intro k
  induction k with
  | zero => intro i rt; rfl
  | succ k ih =>
    intro i rt
    rw [runRounds_succ, List.length_cons, ih]

theorem runRounds_proj (s : SessionData) :
    ∀ (k i : Nat) (rt : List (String × ℚ)),
      (runRounds s rt i k).1.map (fun pt => (pt.sessionName, pt.round)) =
        (List.range' (i + 1) k).map (fun r => (s.sessionName, r)) := by
  intro k
  induction k with
  | zero => intro i rt; rfl
  | succ k ih =>
    intro i rt
    rw [runRounds_succ, List.range'_succ, List.map_cons, List.map_cons, ih]

theorem runRounds_absent (s : SessionData) (p : String) (hp : p ∉ s.results.map Prod.fst) :
    ∀ (k i : Nat) (rt : List (String × ℚ)),
      (∀ pt ∈ (runRounds s rt i k).1, objLookup pt.totals p = objLookup rt p) ∧
        objLookup (runRounds s rt i k).2 p = objLookup rt p := by
  intro k
  induction k with
  | zero => intro i rt; exact ⟨(by intro pt hpt; cases hpt), rfl⟩
  | succ k ih =>
    intro i rt
    have hstep : objLookup (stepRound s.results i rt) p = objLookup rt p :=
      objLookup_stepRound_absent i p s.results rt hp
    rcases ih (i + 1) (stepRound s.results i rt) with ⟨hpts, hsnd⟩
    constructor
    · intro pt hpt
      rw [runRounds_succ] at hpt
      rcases List.mem_cons.mp hpt with rfl | hpt
      · exact hstep
      · rw [hpts pt hpt, hstep]
    · rw [runRounds_succ]
      show objLookup (runRounds s (stepRound s.results i rt) (i + 1) k).2 p = _
      rw [hsnd, hstep]

theorem runRounds_keys (s : SessionData) :
    ∀ (k i : Nat) (rt : List (String × ℚ)),
      (∀ e ∈ s.results, e.1 ∈ rt.map Prod.fst) →
      ((runRounds s rt i k).2.map Prod.fst = rt.map Prod.fst ∧
        ∀ pt ∈ (runRounds s rt i k).1, pt.totals.map Prod.fst = rt.map Prod.fst) := by
  intro k
  induction k with
  | zero => intro i rt _; exact ⟨rfl, by intro pt hpt; cases hpt⟩
  | succ k ih =>
    intro i rt h
    have hk : (stepRound s.results i rt).map Prod.fst = rt.map Prod.fst :=
      keys_stepRound i s.results rt h
    rcases ih (i + 1) (stepRound s.results i rt) (by intro e he; rw [hk]; exact h e he)
      with ⟨hsnd, hpts⟩
    constructor
    · rw [runRounds_succ]
      show (runRounds s (stepRound s.results i rt) (i + 1) k).2.map Prod.fst = _
      rw [hsnd, hk]
    · intro pt hpt
      rw [runRounds_succ] at hpt
      rcases List.mem_cons.mp hpt with rfl | hpt
      · exact hk
      · rw [hpts pt hpt, hk]

theorem rtSum_runRounds (s : SessionData)
    (hzero : ∀ r, (s.results.map (fun e => e.2.getD r 0)).sum = 0) :
    ∀ (k i : Nat) (rt : List (String × ℚ)),
      (∀ e ∈ s.results, e.1 ∈ rt.map Prod.fst) → (rt.map Prod.fst).Nodup →
      (rtSum (runRounds s rt i k).2 = rtSum rt ∧
        ∀ pt ∈ (runRounds s rt i k).1, rtSum pt.totals = rtSum rt) := by
  intro k
  induction k with
  | zero => intro i rt _ _; exact ⟨rfl, by intro pt hpt; cases hpt⟩
  | succ k ih =>
    intro i rt h hnd
    have hk : (stepRound s.results i rt).map Prod.fst = rt.map Prod.fst :=
      keys_stepRound i s.results rt h
    have hsum : rtSum (stepRound s.results i rt) = rtSum rt := by
      rw [rtSum_stepRound i s.results rt h hnd, hzero i, add_zero]
    rcases ih (i + 1) (stepRound s.results i rt) (by intro e he; rw [hk]; exact h e he)
      (by rw [hk]; exact hnd) with ⟨hsnd, hpts⟩
    constructor
    · rw [runRounds_succ]
      show rtSum (runRounds s (stepRound s.results i rt) (i + 1) k).2 = _
      rw [hsnd, hsum]
    · intro pt hpt
      rw [runRounds_succ] at hpt
      rcases List.mem_cons.mp hpt with rfl | hpt
      · exact hsum
      · rw [hpts pt hpt, hsum]

theorem objLookup_runRounds (s : SessionData) (p : String) :
    ∀ (k i : Nat) (rt : List (String × ℚ)), p ∈ rt.map Prod.fst →
      objLookup (runRounds s rt i k).2 p =
        some ((objLookup rt p).getD 0 +
          ((List.range' i k).map
            (fun t => ((s.results.filter (fun e => e.1 = p)).map
              (fun e => e.2.getD t 0)).sum)).sum) := by
  intro k
  induction k with
  | zero =>
    intro i rt h
    rcases Option.isSome_iff_exists.mp ((objLookup_isSome_iff rt p).mpr h) with ⟨v, hv⟩
    rw [runRounds_zero]
    show objLookup rt p = _
    rw [hv]
    simp
  | succ k ih =>
    intro i rt h
    have hstep := objLookup_stepRound i p s.results rt h
    have hmem : p ∈ (stepRound s.results i rt).map Prod.fst :=
      (objLookup_isSome_iff _ p).mp (by rw [hstep]; rfl)
    rw [runRounds_succ]
    show objLookup (runRounds s (stepRound s.results i rt) (i + 1) k).2 p = _
    rw [ih (i + 1) _ hmem, hstep]
    rcases Option.isSome_iff_exists.mp ((objLookup_isSome_iff rt p).mpr h) with ⟨v, hv⟩
    rw [hv, List.range'_succ, List.map_cons, List.sum_cons]
    simp only [Option.getD_some]
    congr 1
    ring

theorem runRounds_final (s : SessionData) :
    ∀ (k i : Nat) (rt : List (String × ℚ)),
      ((runRounds s rt i k).1 = [] ∧ (runRounds s rt i k).2 = rt) ∨
        ∃ pts' pt, (runRounds s rt i k).1 = pts' ++ [pt] ∧
          pt.totals = (runRounds s rt i k).2 := by
  intro k
  induction k with
  | zero => intro i rt; exact Or.inl ⟨rfl, rfl⟩
  | succ k ih =>
    intro i rt
    rw [runRounds_succ]
    rcases ih (i + 1) (stepRound s.results i rt) with ⟨h1, h2⟩ | ⟨pts', pt, h1, h2⟩
    · right
      refine ⟨[], ⟨s.date, s.sessionName, i + 1, stepRound s.results i rt⟩, ?_, ?_⟩
      · show (⟨s.date, s.sessionName, i + 1, stepRound s.results i rt⟩ : ChartDataPoint) ::
          (runRounds s (stepRound s.results i rt) (i + 1) k).1 = _
        rw [h1]
        rfl
      · show stepRound s.results i rt =
          (runRounds s (stepRound s.results i rt) (i + 1) k).2
        rw [h2]
    · right
      refine ⟨⟨s.date, s.sessionName, i + 1, stepRound s.results i rt⟩ :: pts', pt, ?_, h2⟩
      rw [h1]
      rfl

theorem runSessions_nil (rt : List (String × ℚ)) : runSessions rt [] = ([], rt) := rfl

theorem runSessions_cons (rt : List (String × ℚ)) (s : SessionData) (rest : List SessionData) :
    runSessions rt (s :: rest) =
      ((runRounds s rt 0 (numBalanceChanges s)).1 ++
          (runSessions (runRounds s rt 0 (numBalanceChanges s)).2 rest).1,
        (runSessions (runRounds s rt 0 (numBalanceChanges s)).2 rest).2) := rfl

theorem runSessions_keys :
    ∀ (sessions : List SessionData) (rt : List (String × ℚ)),
      (∀ s ∈ sessions, ∀ e ∈ s.results, e.1 ∈ rt.map Prod.fst) →
      ((runSessions rt sessions).2.map Prod.fst = rt.map Prod.fst ∧
        ∀ pt ∈ (runSessions rt sessions).1, pt.totals.map Prod.fst = rt.map Prod.fst) := by
  intro sessions
  induction sessions with
  | nil => intro rt _; exact ⟨rfl, by intro pt hpt; cases hpt⟩
  | cons s rest ih =>
    intro rt h
    rcases runRounds_keys s (numBalanceChanges s) 0 rt (h s (List.mem_cons_self s rest))
      with ⟨hb2, hbpts⟩
    rcases ih (runRounds s rt 0 (numBalanceChanges s)).2
      (by intro x hx e he; rw [hb2]; exact h x (List.mem_cons_of_mem s hx) e he)
      with ⟨hr2, hrpts⟩
    constructor
    · rw [runSessions_cons]
      show (runSessions (runRounds s rt 0 (numBalanceChanges s)).2 rest).2.map Prod.fst = _
      rw [hr2, hb2]
    · intro pt hpt
      rw [runSessions_cons] at hpt
      rcases List.mem_append.mp hpt with hpt | hpt
      · exact hbpts pt hpt
      · rw [hrpts pt hpt, hb2]

theorem rtSum_runSessions :
    ∀ (sessions : List SessionData) (rt : List (String × ℚ)),
      (∀ s ∈ sessions, ∀ e ∈ s.results, e.1 ∈ rt.map Prod.fst) →
      (rt.map Prod.fst).Nodup →
      (∀ s ∈ sessions, ∀ r, (s.results.map (fun e => e.2.getD r 0)).sum = 0) →
      (rtSum (runSessions rt sessions).2 = rtSum rt ∧
        ∀ pt ∈ (runSessions rt sessions).1, rtSum pt.totals = rtSum rt) := by
  intro sessions
  induction sessions with
  | nil => intro rt _ _ _; exact ⟨rfl, by intro pt hpt; cases hpt⟩
  | cons s rest ih =>
    intro rt h hnd hz
    rcases runRounds_keys s (numBalanceChanges s) 0 rt (h s (List.mem_cons_self s rest))
      with ⟨hb2, _⟩
    rcases rtSum_runRounds s (hz s (List.mem_cons_self s rest)) (numBalanceChanges s) 0 rt
      (h s (List.mem_cons_self s rest)) hnd with ⟨hbsum, hbpts⟩
    rcases ih (runRounds s rt 0 (numBalanceChanges s)).2
      (by intro x hx e he; rw [hb2]; exact h x (List.mem_cons_of_mem s hx) e he)
      (by rw [hb2]; exact hnd)
      (fun x hx => hz x (List.mem_cons_of_mem s hx)) with ⟨hr2, hrpts⟩
    constructor
    · rw [runSessions_cons]
      show rtSum (runSessions (runRounds s rt 0 (numBalanceChanges s)).2 rest).2 = _
      rw [hr2, hbsum]
    · intro pt hpt
      rw [runSessions_cons] at hpt
      rcases List.mem_append.mp hpt with hpt | hpt
      · exact hbpts pt hpt
      · rw [hrpts pt hpt, hbsum]

theorem runSessions_final :
    ∀ (sessions : List SessionData) (rt : List (String × ℚ)),
      ((runSessions rt sessions).1 = [] ∧ (runSessions rt sessions).2 = rt) ∨
        ∃ pts' pt, (runSessions rt sessions).1 = pts' ++ [pt] ∧
          pt.totals = (runSessions rt sessions).2 := by
  intro sessions
  induction sessions with
  | nil => intro rt; exact Or.inl ⟨rfl, rfl⟩
  | cons s rest ih =>
    intro rt
    rw [runSessions_cons]
    rcases ih (runRounds s rt 0 (numBalanceChanges s)).2 with ⟨h1, h2⟩ | ⟨pts', pt, h1, h2⟩
    · rcases runRounds_final s (numBalanceChanges s) 0 rt with ⟨g1, g2⟩ | ⟨qts', qt, g1, g2⟩
      · left
        constructor
        · show (runRounds s rt 0 (numBalanceChanges s)).1 ++ _ = []
          rw [g1, h1]
          rfl
        · show (runSessions (runRounds s rt 0 (numBalanceChanges s)).2 rest).2 = rt
          rw [h2, g2]
      · right
        refine ⟨qts', qt, ?_, ?_⟩
        · show (runRounds s rt 0 (numBalanceChanges s)).1 ++ _ = _
          rw [g1, h1, List.append_nil]
        · show qt.totals = (runSessions (runRounds s rt 0 (numBalanceChanges s)).2 rest).2
          rw [h2, g2]
    · right
      refine ⟨(runRounds s rt 0 (numBalanceChanges s)).1 ++ pts', pt, ?_, h2⟩
      show (runRounds s rt 0 (numBalanceChanges s)).1 ++ _ = _
      rw [h1, List.append_assoc]

theorem sumList_eq_sum (l : List ℚ) : sumList l = l.sum := by
  have aux : ∀ (l : List ℚ) (a : ℚ), l.foldl (fun sum value => sum + value) a = a + l.sum := by
    intro l
    induction l with
    | nil => intro a; rw [List.foldl_nil, List.sum_nil, add_zero]
    | cons x l ih =>
      intro a
      rw [List.foldl_cons, ih (a + x), List.sum_cons, add_assoc]
  rw [sumList, aux l 0, zero_add]

theorem assoc_filter_single (p : String) (v : α) :
    ∀ (m : List (String × α)), (m.map Prod.fst).Nodup → objLookup m p = some v →
      m.filter (fun e => e.1 = p) = [(p, v)] := by
  intro m
  induction m with
  | nil => intro _ h; cases h
  | cons e m ih =>
    intro hnd h
    rw [objLookup_cons] at h
    by_cases he : e.1 = p
    · rw [if_pos he] at h
      have hev : e = (p, v) := by
        rcases e with ⟨a, b⟩
        cases h
        cases he
        rfl
      rw [List.filter_cons, if_pos (by simpa using he), hev,
        assoc_filter_nil m p (by
          rw [List.map_cons] at hnd
          exact he ▸ (List.nodup_cons.mp hnd).1)]
    · rw [if_neg he] at h
      rw [List.filter_cons, if_neg (by simpa using he)]
      exact ih (by rw [List.map_cons] at hnd; exact (List.nodup_cons.mp hnd).2) h

theorem map_getD_range'_shift (x : ℚ) (l : List ℚ) :
    ∀ (k s : Nat),
      (List.range' (s + 1) k).map (fun t => (x :: l).getD t 0) =
        (List.range' s k).map (fun t => l.getD t 0) := by
  intro k
  induction k with
  | zero => intro s; rfl
  | succ k ih =>
    intro s
    rw [List.range'_succ, List.range'_succ, List.map_cons, List.map_cons, ih (s + 1)]
    rfl

theorem getD_range'_sum :
    ∀ l : List ℚ, ((List.range' 0 l.length).map (fun t => l.getD t 0)).sum = l.sum := by
  intro l
  induction l with
  | nil => rfl
  | cons x l ih =>
    rw [List.length_cons, List.range'_succ, List.map_cons, List.sum_cons,
      map_getD_range'_shift x l l.length 0, ih, List.sum_cons]
    rfl

theorem sum_map_const_zero (l : List α) : (l.map (fun _ => (0 : ℚ))).sum = 0 := by
  induction l with
  | nil => rfl
  | cons x l ih => rw [List.map_cons, List.sum_cons, ih, add_zero]

theorem objLookup_runRounds_session (s : SessionData) (p : String)
    (rt : List (String × ℚ)) (hmem : p ∈ rt.map Prod.fst)
    (hnd : (s.results.map Prod.fst).Nodup)
    (huni : ∀ e ∈ s.results, e.2.length = numBalanceChanges s) :
    objLookup (runRounds s rt 0 (numBalanceChanges s)).2 p =
      some ((objLookup rt p).getD 0 + sumList ((objLookup s.results p).getD [])) := by
  rw [objLookup_runRounds s p (numBalanceChanges s) 0 rt hmem]
  congr 1
  congr 1
  cases hl : objLookup s.results p with
  | some bcs =>
    have hfil : s.results.filter (fun e => e.1 = p) = [(p, bcs)] :=
      assoc_filter_single p bcs s.results hnd hl
    have hlen : bcs.length = numBalanceChanges s :=
      huni (p, bcs) (objLookup_mem s.results p bcs hl)
    rw [hfil, Option.getD_some, sumList_eq_sum]
    have : ∀ t ∈ List.range' 0 (numBalanceChanges s),
        (([(p, bcs)] : List (String × List ℚ)).map (fun e => e.2.getD t 0)).sum =
          bcs.getD t 0 := by
      intro t _
      rw [List.map_cons, List.map_nil, List.sum_cons, List.sum_nil, add_zero]
    rw [List.map_congr_left this, ← hlen, getD_range'_sum]
  | none =>
    have hnp : p ∉ s.results.map Prod.fst := by
      intro hp
      have := (objLookup_isSome_iff s.results p).mpr hp
      rw [hl] at this
      cases this
    have hfil : s.results.filter (fun e => e.1 = p) = [] := assoc_filter_nil s.results p hnp
    rw [hfil]
    have : ∀ t ∈ List.range' 0 (numBalanceChanges s),
        (([] : List (String × List ℚ)).map (fun e => e.2.getD t 0)).sum = (0 : ℚ) := by
      intro t _
      rfl
    rw [List.map_congr_left this, sum_map_const_zero]
    rfl

theorem objLookup_runSessions_final (p : String) :
    ∀ (sessions : List SessionData) (rt : List (String × ℚ)),
      p ∈ rt.map Prod.fst →
      (∀ s ∈ sessions, (s.results.map Prod.fst).Nodup) →
      (∀ s ∈ sessions, ∀ e ∈ s.results, e.2.length = numBalanceChanges s) →
      objLookup (runSessions rt sessions).2 p =
        some ((objLookup rt p).getD 0 +
          (sessions.map (fun s => sumList ((objLookup s.results p).getD []))).sum) := by
  intro sessions
  induction sessions with
  | nil =>
    intro rt hmem _ _
    rcases Option.isSome_iff_exists.mp ((objLookup_isSome_iff rt p).mpr hmem) with ⟨v, hv⟩
    rw [runSessions_nil]
    show objLookup rt p = _
    rw [hv]
    simp
  | cons s rest ih =>
    intro rt hmem hnd huni
    have hb := objLookup_runRounds_session s p rt hmem (hnd s (List.mem_cons_self s rest))
      (huni s (List.mem_cons_self s rest))
    have hbmem : p ∈ (runRounds s rt 0 (numBalanceChanges s)).2.map Prod.fst :=
      (objLookup_isSome_iff _ p).mp (by rw [hb]; rfl)
    rw [runSessions_cons]
    show objLookup (runSessions (runRounds s rt 0 (numBalanceChanges s)).2 rest).2 p = _
    rw [ih _ hbmem (fun x hx => hnd x (List.mem_cons_of_mem s hx))
      (fun x hx => huni x (List.mem_cons_of_mem s hx)), hb]
    rcases Option.isSome_iff_exists.mp ((objLookup_isSome_iff rt p).mpr hmem) with ⟨v, hv⟩
    rw [hv, List.map_cons, List.sum_cons]
    simp only [Option.getD_some]
    congr 1
    ring

/-- The session whose round loop emitted the `j`-th non-start chart point
(0-based among the non-start points): walk the sessions, skipping each
session's `numBalanceChanges` emitted points. -/
def sessionAtPoint : List SessionData → Nat → Option SessionData
  | [], _ => none
  | s :: rest, j =>
    if j < numBalanceChanges s then some s
    else sessionAtPoint rest (j - numBalanceChanges s)

theorem sessionAtPoint_cons (s : SessionData) (rest : List SessionData) (j : Nat) :
    sessionAtPoint (s :: rest) j =
      if j < numBalanceChanges s then some s
      else sessionAtPoint rest (j - numBalanceChanges s) := rfl

theorem getD_append_lt (d : α) :
    ∀ (l l' : List α) (i : Nat), i < l.length → (l ++ l').getD i d = l.getD i d := by
  intro l
  induction l with
  | nil => intro l' i h; cases h
  | cons x l ih =>
    intro l' i h
    cases i with
    | zero => rfl
    | succ i =>
      rw [List.cons_append, List.getD_cons_succ, List.getD_cons_succ]
      exact ih l' i (by simpa using h)

theorem getD_append_ge (d : α) :
    ∀ (l l' : List α) (i : Nat), l.length ≤ i → (l ++ l').getD i d = l'.getD (i - l.length) d := by
  intro l
  induction l with
  | nil => intro l' i _; rfl
  | cons x l ih =>
    intro l' i h
    cases i with
    | zero => cases h
    | succ i =>
      rw [List.cons_append, List.getD_cons_succ, ih l' i (by simpa using h)]
      have harith : i + 1 - (x :: l).length = i - l.length := by
        rw [List.length_cons]
        omega
      rw [harith]

theorem getD_concat_length (d a : α) :
    ∀ l : List α, (l ++ [a]).getD l.length d = a := by
  intro l
  induction l with
  | nil => rfl
  | cons x l ih =>
    rw [List.cons_append, List.length_cons, List.getD_cons_succ, ih]

theorem getD_mem_of_lt (d : α) (l : List α) (i : Nat) (h : i < l.length) :
    l.getD i d ∈ l := by
  rw [List.getD_eq_getElem l d h]
  exact List.getElem_mem h

theorem runSessions_fst_cons (rt : List (String × ℚ)) (s0 : SessionData)
    (rest : List SessionData) :
    (runSessions rt (s0 :: rest)).1 =
      (runRounds s0 rt 0 (numBalanceChanges s0)).1 ++
        (runSessions (runRounds s0 rt 0 (numBalanceChanges s0)).2 rest).1 := rfl

theorem runSessions_snd_cons (rt : List (String × ℚ)) (s0 : SessionData)
    (rest : List SessionData) :
    (runSessions rt (s0 :: rest)).2 =
      (runSessions (runRounds s0 rt 0 (numBalanceChanges s0)).2 rest).2 := rfl

theorem runSessions_frame (p : String) :
    ∀ (sessions : List SessionData) (rt : List (String × ℚ)) (j : Nat) (s : SessionData),
      sessionAtPoint sessions j = some s → p ∉ s.results.map Prod.fst →
      objLookup ((runSessions rt sessions).1.getD j emptyPoint).totals p =
        objLookup
          (if j = 0 then rt
            else ((runSessions rt sessions).1.getD (j - 1) emptyPoint).totals) p := by
  intro sessions
  induction sessions with
  | nil => intro rt j s h _; cases h
  | cons s0 rest ih =>
    intro rt j s h hp
    rw [sessionAtPoint_cons] at h
    have hlen : (runRounds s0 rt 0 (numBalanceChanges s0)).1.length = numBalanceChanges s0 :=
      runRounds_length s0 (numBalanceChanges s0) 0 rt
    by_cases hj : j < numBalanceChanges s0
    · rw [if_pos hj] at h
      have hs0 : s0 = s := by cases h; rfl
      have hp0 : p ∉ s0.results.map Prod.fst := hs0 ▸ hp
      rcases runRounds_absent s0 p hp0 (numBalanceChanges s0) 0 rt with ⟨hbpts, _⟩
      have hLHS :
          objLookup ((runSessions rt (s0 :: rest)).1.getD j emptyPoint).totals p =
            objLookup rt p := by
        rw [runSessions_fst_cons, getD_append_lt _ _ _ j (by rw [hlen]; exact hj)]
        exact hbpts _ (getD_mem_of_lt _ _ j (by rw [hlen]; exact hj))
      rw [hLHS]
      by_cases hj0 : j = 0
      · rw [if_pos hj0]
      · rw [if_neg hj0]
        have hj1 : j - 1 < numBalanceChanges s0 := by omega
        rw [runSessions_fst_cons, getD_append_lt _ _ _ (j - 1) (by rw [hlen]; exact hj1)]
        exact (hbpts _ (getD_mem_of_lt _ _ (j - 1) (by rw [hlen]; exact hj1))).symm
    · rw [if_neg hj] at h
      have hge : numBalanceChanges s0 ≤ j := le_of_not_lt hj
      have hIH := ih (runRounds s0 rt 0 (numBalanceChanges s0)).2 (j - numBalanceChanges s0)
        s h hp
      have hLHS :
          objLookup ((runSessions rt (s0 :: rest)).1.getD j emptyPoint).totals p =
            objLookup
              ((runSessions (runRounds s0 rt 0 (numBalanceChanges s0)).2 rest).1.getD
                (j - numBalanceChanges s0) emptyPoint).totals p := by
        rw [runSessions_fst_cons, getD_append_ge _ _ _ j (by rw [hlen]; exact hge), hlen]
      rw [hLHS, hIH]
      by_cases hj0 : j = 0
      · rw [if_pos hj0]
        have hn0 : numBalanceChanges s0 = 0 := by omega
        have hjn0 : j - numBalanceChanges s0 = 0 := by omega
        rw [if_pos hjn0]
        have hb2 : (runRounds s0 rt 0 (numBalanceChanges s0)).2 = rt := by
          rw [hn0, runRounds_zero]
        rw [hb2]
      · rw [if_neg hj0]
        by_cases hjn0 : j - numBalanceChanges s0 = 0
        · rw [if_pos hjn0]
          have hjn : j = numBalanceChanges s0 := by omega
          have hnpos : 0 < numBalanceChanges s0 := by omega
          rcases runRounds_final s0 (numBalanceChanges s0) 0 rt with ⟨hemp, _⟩ |
            ⟨pts', pt, hsplit, htot⟩
          · exfalso
            rw [hemp] at hlen
            simp at hlen
            omega
          · have hlen' : pts'.length + 1 = numBalanceChanges s0 := by
              rw [hsplit] at hlen
              simpa using hlen
            have hidx : j - 1 = pts'.length := by omega
            rw [runSessions_fst_cons,
              getD_append_lt _ _ _ (j - 1) (by rw [hlen]; omega), hsplit, hidx,
              getD_concat_length, htot]
        · rw [if_neg hjn0]
          have hidx : j - 1 - numBalanceChanges s0 = j - numBalanceChanges s0 - 1 := by omega
          rw [runSessions_fst_cons, getD_append_ge _ _ _ (j - 1) (by rw [hlen]; omega),
            hlen, hidx]

theorem generateChartData_nil : generateChartData [] = [] := rfl

theorem generateChartData_cons (s0 : SessionData) (rest : List SessionData) :
    generateChartData (s0 :: rest) =
      ⟨s0.date, s0.sessionName ++ " - Start", 0,
          (collectAllPlayers (s0 :: rest)).map (fun p => (p, 0))⟩ ::
        (runSessions ((collectAllPlayers (s0 :: rest)).map (fun p => (p, 0)))
          (s0 :: rest)).1 := rfl

theorem keys_rt0 (ps : List String) :
    (ps.map (fun p => (p, (0 : ℚ)))).map Prod.fst = ps := by
  rw [List.map_map]
  exact List.map_id ps

theorem objLookup_rt0 (p : String) :
    ∀ ps : List String, p ∈ ps → objLookup (ps.map (fun p => (p, (0 : ℚ)))) p = some 0 := by
  intro ps
  induction ps with
  | nil => intro h; cases h
  | cons q ps ih =>
    intro h
    rw [List.map_cons, objLookup_cons]
    by_cases hq : q = p
    · rw [if_pos hq]
    · rw [if_neg hq]
      rcases List.mem_cons.mp h with rfl | h1
      · exact absurd rfl hq
      · exact ih h1

theorem rtSum_rt0 (ps : List String) : rtSum (ps.map (fun p => (p, (0 : ℚ)))) = 0 := by
  induction ps with
  | nil => rfl
  | cons q ps ih =>
    rw [List.map_cons, rtSum_cons, ih, add_zero]

theorem chart_entry_keys_in_rt0 (sessions : List SessionData) :
    ∀ s ∈ sessions, ∀ e ∈ s.results,
      e.1 ∈ ((collectAllPlayers sessions).map (fun p => (p, (0 : ℚ)))).map Prod.fst := by
  intro s hs e he
  rw [keys_rt0]
  exact (mem_collectAllPlayers e.1 sessions).mpr ⟨s, hs, List.mem_map.mpr ⟨e, he, rfl⟩⟩

theorem runSessions_proj :
    ∀ (sessions : List SessionData) (rt : List (String × ℚ)),
      (runSessions rt sessions).1.map (fun pt => (pt.sessionName, pt.round)) =
        (sessions.map
          (fun s => (List.range' 1 (numBalanceChanges s)).map (fun r => (s.sessionName, r)))).flatten := by
  intro sessions
  induction sessions with
  | nil => intro rt; rfl
  | cons s rest ih =>
    intro rt
    rw [runSessions_fst_cons, List.map_append, List.map_cons, List.flatten_cons,
      runRounds_proj s (numBalanceChanges s) 0 rt, ih]

/-- Claim C7: the chart series starts with a synthetic round-0 point labeled
from the first session (`"<name> - Start"`), mapping every player seen
anywhere in the collection to 0; the remaining points' (label, round)
pairs are, session by session in input order, exactly the contiguous round
indices 1..N where N is the session's round count (so a zero-round session
contributes nothing); and an empty input yields an empty series. -/
theorem claim_C7 (s0 : SessionData) (rest : List SessionData)
    (huni : ∀ s ∈ s0 :: rest, ∀ e1 ∈ s.results, ∀ e2 ∈ s.results,
      e1.2.length = e2.2.length) :
    generateChartData [] = [] ∧
    generateChartData (s0 :: rest) =
      ⟨s0.date, s0.sessionName ++ " - Start", 0,
          (collectAllPlayers (s0 :: rest)).map (fun p => (p, 0))⟩ ::
        (runSessions ((collectAllPlayers (s0 :: rest)).map (fun p => (p, 0)))
          (s0 :: rest)).1 ∧
    (∀ p, p ∈ collectAllPlayers (s0 :: rest) ↔
      ∃ s ∈ s0 :: rest, p ∈ s.results.map Prod.fst) ∧
    ((generateChartData (s0 :: rest)).map (fun pt => (pt.sessionName, pt.round)) =
      (s0.sessionName ++ " - Start", 0) ::
        ((s0 :: rest).map
          (fun s => (List.range' 1 (numBalanceChanges s)).map
            (fun r => (s.sessionName, r)))).flatten) ∧
    (∀ s ∈ s0 :: rest, ∀ e ∈ s.results, e.2.length = numBalanceChanges s) := by
  refine ⟨rfl, rfl, fun p => mem_collectAllPlayers p _, ?_,
    fun s hs => uniform_length s (huni s hs)⟩
  rw [generateChartData_cons, List.map_cons, runSessions_proj]

/-- Witness for C7 on two concrete sessions. -/
theorem claim_C7_witness :
    (∀ s ∈ exS1 :: [exS2], ∀ e1 ∈ s.results, ∀ e2 ∈ s.results,
      e1.2.length = e2.2.length) ∧
    (generateChartData [] = [] ∧
      generateChartData (exS1 :: [exS2]) =
        ⟨exS1.date, exS1.sessionName ++ " - Start", 0,
            (collectAllPlayers (exS1 :: [exS2])).map (fun p => (p, 0))⟩ ::
          (runSessions ((collectAllPlayers (exS1 :: [exS2])).map (fun p => (p, 0)))
            (exS1 :: [exS2])).1 ∧
      (∀ p, p ∈ collectAllPlayers (exS1 :: [exS2]) ↔
        ∃ s ∈ exS1 :: [exS2], p ∈ s.results.map Prod.fst) ∧
      ((generateChartData (exS1 :: [exS2])).map (fun pt => (pt.sessionName, pt.round)) =
        (exS1.sessionName ++ " - Start", 0) ::
          ((exS1 :: [exS2]).map
            (fun s => (List.range' 1 (numBalanceChanges s)).map
              (fun r => (s.sessionName, r)))).flatten) ∧
      (∀ s ∈ exS1 :: [exS2], ∀ e ∈ s.results, e.2.length = numBalanceChanges s)) := by
  have h1 : ∀ s ∈ exS1 :: [exS2], ∀ e1 ∈ s.results, ∀ e2 ∈ s.results,
      e1.2.length = e2.2.length := by
    intro s hs
    rcases List.mem_cons.mp hs with rfl | hs
    · with_unfolding_all decide
    · rcases List.mem_cons.mp hs with rfl | hs
      · with_unfolding_all decide
      · cases hs
  exact ⟨h1, claim_C7 exS1 [exS2] h1⟩

/-- Claim C2: if within every session all delta sequences have equal length
and every round's deltas across the session's players sum to zero, then at
every chart point the players' running totals sum to zero. -/
theorem claim_C2 (sessions : List SessionData)
    (huni : ∀ s ∈ sessions, ∀ e1 ∈ s.results, ∀ e2 ∈ s.results,
      e1.2.length = e2.2.length)
    (hzero : ∀ s ∈ sessions, ∀ r, r < numBalanceChanges s →
      (s.results.map (fun e => e.2.getD r 0)).sum = 0) :
    ∀ pt ∈ generateChartData sessions, (pt.totals.map (fun e => e.2)).sum = 0 := by
  have hz' : ∀ s ∈ sessions, ∀ r, (s.results.map (fun e => e.2.getD r 0)).sum = 0 := by
    intro s hs r
    by_cases hr : r < numBalanceChanges s
    · exact hzero s hs r hr
    · have : ∀ e ∈ s.results, e.2.getD r 0 = 0 := by
        intro e he
        rw [List.getD_eq_default]
        rw [uniform_length s (huni s hs) e he]
        omega
      rw [List.map_congr_left this, sum_map_const_zero]
  cases sessions with
  | nil => intro pt hpt; rw [generateChartData_nil] at hpt; cases hpt
  | cons s0 rest =>
    intro pt hpt
    rw [generateChartData_cons] at hpt
    rcases rtSum_runSessions (s0 :: rest)
      ((collectAllPlayers (s0 :: rest)).map (fun p => (p, 0)))
      (chart_entry_keys_in_rt0 (s0 :: rest))
      (by rw [keys_rt0]; exact collectAllPlayers_nodup (s0 :: rest)) hz'
      with ⟨_, hpts⟩
    rcases List.mem_cons.mp hpt with rfl | hpt
    · show rtSum ((collectAllPlayers (s0 :: rest)).map (fun p => (p, 0))) = 0
      exact rtSum_rt0 _
    · show rtSum pt.totals = 0
      rw [hpts pt hpt]
      exact rtSum_rt0 _

/-- Witness for C2: both example sessions are zero-sum round by round. -/
theorem claim_C2_witness :
    (∀ s ∈ [exS1, exS2], ∀ e1 ∈ s.results, ∀ e2 ∈ s.results,
      e1.2.length = e2.2.length) ∧
    (∀ s ∈ [exS1, exS2], ∀ r, r < numBalanceChanges s →
      (s.results.map (fun e => e.2.getD r 0)).sum = 0) ∧
    ∀ pt ∈ generateChartData [exS1, exS2], (pt.totals.map (fun e => e.2)).sum = 0 := by
  have h1 : ∀ s ∈ [exS1, exS2], ∀ e1 ∈ s.results, ∀ e2 ∈ s.results,
      e1.2.length = e2.2.length := by
    intro s hs
    rcases List.mem_cons.mp hs with rfl | hs
    · with_unfolding_all decide
    · rcases List.mem_cons.mp hs with rfl | hs
      · with_unfolding_all decide
      · cases hs
  have h2 : ∀ s ∈ [exS1, exS2], ∀ r, r < numBalanceChanges s →
      (s.results.map (fun e => e.2.getD r 0)).sum = 0 := by
    intro s hs
    rcases List.mem_cons.mp hs with rfl | hs
    · intro r hr
      have hn : numBalanceChanges exS1 = 2 := by with_unfolding_all rfl
      rw [hn] at hr
      interval_cases r <;> with_unfolding_all rfl
    · rcases List.mem_cons.mp hs with rfl | hs
      · intro r hr
        have hn : numBalanceChanges exS2 = 2 := by with_unfolding_all rfl
        rw [hn] at hr
        interval_cases r <;> with_unfolding_all rfl
      · cases hs
  exact ⟨h1, h2, claim_C2 [exS1, exS2] h1 h2⟩

/-- Claim C8: every chart point maps exactly the players seen anywhere in
the whole collection (carried as the key list of the running-totals
frame), and a player absent from the session that emitted a point keeps,
at that point, the same value as at the immediately preceding point.
`sessionAtPoint sessions i` is the session that emitted the point at
output index `i + 1` (index 0 being the synthetic start point). -/
theorem claim_C8 (sessions : List SessionData) :
    (∀ pt ∈ generateChartData sessions, pt.totals.map Prod.fst = collectAllPlayers sessions) ∧
    (∀ (i : Nat) (s : SessionData) (p : String),
      sessionAtPoint sessions i = some s → p ∉ s.results.map Prod.fst →
      objLookup ((generateChartData sessions).getD (i + 1) emptyPoint).totals p =
        objLookup ((generateChartData sessions).getD i emptyPoint).totals p) := by
  constructor
  · cases sessions with
    | nil => intro pt hpt; rw [generateChartData_nil] at hpt; cases hpt
    | cons s0 rest =>
      intro pt hpt
      rw [generateChartData_cons] at hpt
      rcases runSessions_keys (s0 :: rest)
        ((collectAllPlayers (s0 :: rest)).map (fun p => (p, 0)))
        (chart_entry_keys_in_rt0 (s0 :: rest)) with ⟨_, hpts⟩
      rcases List.mem_cons.mp hpt with rfl | hpt
      · show ((collectAllPlayers (s0 :: rest)).map (fun p => (p, 0))).map Prod.fst = _
        exact keys_rt0 _
      · rw [hpts pt hpt]
        exact keys_rt0 _
  · intro i s p h hp
    cases sessions with
    | nil => cases h
    | cons s0 rest =>
      have hframe := runSessions_frame p (s0 :: rest)
        ((collectAllPlayers (s0 :: rest)).map (fun p => (p, 0))) i s h hp
      rw [generateChartData_cons, List.getD_cons_succ]
      cases i with
      | zero =>
        rw [if_pos rfl] at hframe
        rw [hframe]
        rfl
      | succ i =>
        rw [if_neg (Nat.succ_ne_zero i)] at hframe
        rw [hframe, List.getD_cons_succ]
        have : i + 1 - 1 = i := rfl
        rw [this]

/-- Third witness session: only Alice plays. -/
def exS3 : SessionData := ⟨"2025-01-03", "2025-01-03", ["Alice"], [("Alice", [7])]⟩

/-- Witness for C8: the point emitted by `exS3` (output index 3) leaves the
absent player Bob's value unchanged from the preceding point. -/
theorem claim_C8_witness :
    sessionAtPoint [exS1, exS3] 2 = some exS3 ∧
    "Bob" ∉ exS3.results.map Prod.fst ∧
    objLookup ((generateChartData [exS1, exS3]).getD 3 emptyPoint).totals "Bob" =
      objLookup ((generateChartData [exS1, exS3]).getD 2 emptyPoint).totals "Bob" ∧
    (∀ pt ∈ generateChartData [exS1, exS3],
      pt.totals.map Prod.fst = collectAllPlayers [exS1, exS3]) := by
  have hat : sessionAtPoint [exS1, exS3] 2 = some exS3 := by with_unfolding_all rfl
  have hnb : "Bob" ∉ exS3.results.map Prod.fst := by with_unfolding_all decide
  exact ⟨hat, hnb, (claim_C8 [exS1, exS3]).2 2 exS3 "Bob" hat hnb, (claim_C8 [exS1, exS3]).1⟩

theorem g_sum_filter (p : String) :
    ∀ sessions : List SessionData,
      ((sessionsWith p sessions).map
        (fun s => sumList ((objLookup s.results p).getD []))).sum =
      (sessions.map (fun s => sumList ((objLookup s.results p).getD []))).sum := by
  intro sessions
  induction sessions with
  | nil => rfl
  | cons s rest ih =>
    cases hl : objLookup s.results p with
    | some bcs =>
      have hpos : sessionsWith p (s :: rest) = s :: sessionsWith p rest := by
        rw [sessionsWith, List.filter_cons_of_pos]
        · rfl
        · simp [hl]
      rw [hpos, List.map_cons, List.map_cons, List.sum_cons, List.sum_cons, ih]
    | none =>
      have hneg : sessionsWith p (s :: rest) = sessionsWith p rest := by
        rw [sessionsWith, List.filter_cons_of_neg]
        · rfl
        · simp [hl]
      rw [hneg, List.map_cons, List.sum_cons, ih, hl]
      show _ = sumList [] + _
      rw [sumList, List.foldl_nil, zero_add]

/-- Claim C1: with non-empty input, uniform per-session round counts and
genuine per-session mappings, the value the last chart point assigns to
any player appearing in the data equals that player's `total` in the
`calculatePlayerTotals` output. -/
theorem claim_C1 (sessions : List SessionData) (hne : sessions ≠ [])
    (huni : ∀ s ∈ sessions, ∀ e1 ∈ s.results, ∀ e2 ∈ s.results,
      e1.2.length = e2.2.length)
    (hnd : ∀ s ∈ sessions, (s.results.map Prod.fst).Nodup)
    (p : String) (happ : ∃ s ∈ sessions, p ∈ s.results.map Prod.fst) :
    ∃ lastPt, (generateChartData sessions).getLast? = some lastPt ∧
      ∃ pt ∈ calculatePlayerTotals sessions,
        pt.name = p ∧ objLookup lastPt.totals p = some pt.total ∧
        (∀ pt' ∈ calculatePlayerTotals sessions, pt'.name = p → pt' = pt) := by
  cases sessions with
  | nil => exact absurd rfl hne
  | cons s0 rest =>
    have hpK : p ∈ collectAllPlayers (s0 :: rest) :=
      (mem_collectAllPlayers p (s0 :: rest)).mpr happ
    have hpkeys : p ∈ ((collectAllPlayers (s0 :: rest)).map
        (fun p => (p, (0 : ℚ)))).map Prod.fst := by
      rw [keys_rt0]
      exact hpK
    have hfin := objLookup_runSessions_final p (s0 :: rest)
      ((collectAllPlayers (s0 :: rest)).map (fun p => (p, 0))) hpkeys hnd
      (fun s hs => uniform_length s (huni s hs))
    rw [objLookup_rt0 p _ hpK] at hfin
    simp only [Option.getD_some] at hfin
    -- the last chart point's totals are the final running-totals frame
    have hlast : ∃ lastPt, (generateChartData (s0 :: rest)).getLast? = some lastPt ∧
        objLookup lastPt.totals p =
          objLookup (runSessions ((collectAllPlayers (s0 :: rest)).map (fun p => (p, 0)))
            (s0 :: rest)).2 p := by
      rcases runSessions_final (s0 :: rest)
        ((collectAllPlayers (s0 :: rest)).map (fun p => (p, 0))) with ⟨hemp, hsnd⟩ |
        ⟨pts', pt, hsplit, htot⟩
      · refine ⟨⟨s0.date, s0.sessionName ++ " - Start", 0,
          (collectAllPlayers (s0 :: rest)).map (fun p => (p, 0))⟩, ?_, ?_⟩
        · rw [generateChartData_cons, hemp]
          rfl
        · rw [hsnd]
      · refine ⟨pt, ?_, ?_⟩
        · rw [generateChartData_cons, hsplit, ← List.cons_append]
          exact List.getLast?_concat _
        · rw [htot]
    rcases hlast with ⟨lastPt, hl1, hl2⟩
    -- the totals-side entry
    have hsw : ∃ s0' srest', sessionsWith p (s0 :: rest) = s0' :: srest' := by
      rcases happ with ⟨s, hs, hp⟩
      have : s ∈ sessionsWith p (s0 :: rest) := List.mem_filter.mpr
        ⟨hs, by simpa using (objLookup_isSome_iff s.results p).mpr hp⟩
      cases hseq : sessionsWith p (s0 :: rest) with
      | nil => rw [hseq] at this; cases this
      | cons a b => exact ⟨a, b, rfl⟩
    rcases hsw with ⟨s0', srest', hsw⟩
    have hlk : objLookup (totalsObj (s0 :: rest)) p =
        some ⟨p,
          sumList ((objLookup s0'.results p).getD []) +
            (srest'.map (fun s => sumList ((objLookup s.results p).getD []))).sum,
          1 + srest'.length,
          foldDates s0'.date (srest'.map (fun s => s.date))⟩ := by
      rw [objLookup_totalsObj _ p hnd, accumTotals_none_closed p _, hsw]
    rcases totals_entry_unique _ p _ hlk with ⟨hmem, hname, huniq⟩
    refine ⟨lastPt, hl1, _, hmem, hname, ?_, huniq⟩
    rw [hl2, hfin]
    congr 1
    rw [zero_add]
    have := g_sum_filter p (s0 :: rest)
    rw [hsw, List.map_cons, List.sum_cons] at this
    exact this.symm

/-- Witness for C1 at a concrete two-session input. -/
theorem claim_C1_witness :
    ([exS1, exS2] ≠ ([] : List SessionData)) ∧
    (∀ s ∈ [exS1, exS2], ∀ e1 ∈ s.results, ∀ e2 ∈ s.results,
      e1.2.length = e2.2.length) ∧
    (∀ s ∈ [exS1, exS2], (s.results.map Prod.fst).Nodup) ∧
    (∃ s ∈ [exS1, exS2], "Alice" ∈ s.results.map Prod.fst) ∧
    ∃ lastPt, (generateChartData [exS1, exS2]).getLast? = some lastPt ∧
      ∃ pt ∈ calculatePlayerTotals [exS1, exS2],
        pt.name = "Alice" ∧ objLookup lastPt.totals "Alice" = some pt.total ∧
        (∀ pt' ∈ calculatePlayerTotals [exS1, exS2], pt'.name = "Alice" → pt' = pt) := by
  have h0 : [exS1, exS2] ≠ ([] : List SessionData) := by
    intro h
    cases h
  have h1 : ∀ s ∈ [exS1, exS2], ∀ e1 ∈ s.results, ∀ e2 ∈ s.results,
      e1.2.length = e2.2.length := by
    intro s hs
    rcases List.mem_cons.mp hs with rfl | hs
    · with_unfolding_all decide
    · rcases List.mem_cons.mp hs with rfl | hs
      · with_unfolding_all decide
      · cases hs
  have h2 : ∀ s ∈ [exS1, exS2], (s.results.map Prod.fst).Nodup := by
    intro s hs
    rcases List.mem_cons.mp hs with rfl | hs
    · with_unfolding_all decide
    · rcases List.mem_cons.mp hs with rfl | hs
      · with_unfolding_all decide
      · cases hs
  have h3 : ∃ s ∈ [exS1, exS2], "Alice" ∈ s.results.map Prod.fst :=
    ⟨exS1, List.mem_cons_self _ _, by with_unfolding_all decide⟩
  exact ⟨h0, h1, h2, h3, claim_C1 [exS1, exS2] h0 h1 h2 "Alice" h3⟩
